import Mathlib

/-!
A shallow embedding of the sparse-state quantum simulator
(`src/backend/src/simulator.rs`) and a verification of the spec claims
against it.

Modelling conventions:
* `BigUint` basis indices become `ℕ`; `Complex64` amplitudes become `ℂ`
  (exact real arithmetic in place of `f64`).
* `FxHashMap` becomes an association list `List (ℕ × α)`; `insert` replaces
  an existing key or appends, `remove` deletes the key, iteration is list
  order (hash-map iteration order is unspecified, and every use in the
  source is order-insensitive up to the association-list reading).
* Panics (usage errors) become `None`; operations that cannot fail stay
  total.
* The thread-local RNG sample of `measure_impl` becomes an explicit real
  parameter.
-/

open scoped Classical

noncomputable section

namespace QSim

/-- Association-list lookup, modelling `FxHashMap::get`. -/
def lookup {β : Type} : List (ℕ × β) → ℕ → Option β
  | [], _ => none
  | e :: rest, k => if e.1 = k then some e.2 else lookup rest k

/-- Association-list insert, modelling `FxHashMap::insert`: replaces the
value at an existing key, otherwise appends the new entry. -/
def insertEntry {β : Type} : List (ℕ × β) → ℕ → β → List (ℕ × β)
  | [], k, v => [(k, v)]
  | e :: rest, k, v => if e.1 = k then (k, v) :: rest else e :: insertEntry rest k v

/-- Association-list removal, modelling `FxHashMap::remove`. -/
def eraseEntry {β : Type} : List (ℕ × β) → ℕ → List (ℕ × β)
  | [], _ => []
  | e :: rest, k => if e.1 = k then rest else e :: eraseEntry rest k

/-- The key list of an association list, modelling `FxHashMap::keys`. -/
def keys {β : Type} (m : List (ℕ × β)) : List ℕ := m.map Prod.fst

/-- `BigUint::set_bit`: set bit `i` of `k` to the boolean `b`. -/
def setBitN (k i : ℕ) (b : Bool) : ℕ :=
  if k.testBit i = b then k else k ^^^ (1 <<< i)

/-- `count_ones` of a natural number (binary popcount). -/
def countOnes : ℕ → ℕ
  | 0 => 0
  | n + 1 => (n + 1) % 2 + countOnes ((n + 1) / 2)
decreasing_by exact Nat.div_lt_self (Nat.succ_pos n) (by omega)

/-- Modelled from the spec: the near-zero epsilon of the pruning policy.
The `NearlyZero` trait lives in `nearly_zero.rs`, which is not part of the
sources given; the spec says entries whose squared magnitude falls below a
small epsilon are dropped, and 1e-10 is the tolerance the spec names. -/
def epsilon : ℝ := 1 / 10 ^ 10

/-- Modelled from the spec: `NearlyZero::is_nearly_zero` for an amplitude,
true when the squared magnitude falls below the near-zero epsilon. -/
def isNearlyZero (v : ℂ) : Prop := Complex.normSq v < epsilon

/-- `std::f64::consts::FRAC_1_SQRT_2`, modelled exactly. -/
def frac1Sqrt2 : ℝ := (Real.sqrt 2)⁻¹

/-- The simulator state: the sparse amplitude store and the map from
qubit identifiers to internal state locations (`struct QuantumSim`). -/
structure QuantumSim where
  state : List (ℕ × ℂ)
  id_map : List (ℕ × ℕ)

/-- `QuantumSim::new()`: empty initial state. -/
def QuantumSim.new : QuantumSim := ⟨[], []⟩

/-- `QuantumSim::allocate`: seed the ground state if no qubits are live,
then insert the first available sequential id, mapped to the next
location. Returns the new id and the updated simulator. -/
def allocate (sim : QuantumSim) : ℕ × QuantumSim :=
  let st := if sim.id_map.isEmpty then insertEntry sim.state 0 1 else sim.state
  let sorted_keys := List.insertionSort (· ≤ ·) (keys sim.id_map)
  let n_qubits := sorted_keys.length
  let new_key :=
    (((sorted_keys.enum.takeWhile fun p => p.1 == p.2).getLast?).map
      fun p => p.2 + 1).getD 0
  (new_key, ⟨st, insertEntry sim.id_map new_key n_qubits⟩)

/-- The parity test `(index & mask).count_ones() & 1 > 0` from
`check_joint_probability` and `joint_collapse`. -/
def maskParity (index mask : ℕ) : Bool := decide (0 < countOnes (index &&& mask) &&& 1)

/-- The mask over the given locations, `fold (accum | (1 << loc))`. -/
def locsMask (locs : List ℕ) : ℕ := locs.foldl (fun accum loc => accum ||| (1 <<< loc)) 0

/-- `QuantumSim::check_joint_probability`: sum of squared magnitudes of
entries with odd parity under the mask of the given locations. -/
def check_joint_probability (sim : QuantumSim) (locs : List ℕ) : ℝ :=
  let mask := locsMask locs
  sim.state.foldl
    (fun accum kv => if maskParity kv.1 mask then accum + Complex.normSq kv.2 else accum) 0

/-- `QuantumSim::joint_collapse`: keep the entries whose mask parity equals
`val` (accumulating their squared magnitudes), then rescale every kept
amplitude by `1 / sqrt` of that accumulated mass. -/
def joint_collapse (locs : List ℕ) (val : Bool) (sim : QuantumSim) : QuantumSim :=
  let mask := locsMask locs
  let kept := sim.state.foldl
    (fun (acc : List (ℕ × ℂ) × ℝ) kv =>
      if maskParity kv.1 mask = val then
        (insertEntry acc.1 kv.1 kv.2, acc.2 + Complex.normSq kv.2)
      else acc)
    ([], 0)
  let scaling := 1 / Real.sqrt kept.2
  ⟨kept.1.map fun kv => (kv.1, kv.2 * Complex.ofReal scaling), sim.id_map⟩

/-- `QuantumSim::collapse`. -/
def collapse (loc : ℕ) (val : Bool) (sim : QuantumSim) : QuantumSim :=
  joint_collapse [loc] val sim

/-- `QuantumSim::measure_impl` with the drawn uniform sample made an
explicit parameter: outcome is `sample < check_joint_probability [loc]`,
then the state is collapsed on that outcome. -/
def measure_impl (sample : ℝ) (loc : ℕ) (sim : QuantumSim) : Bool × QuantumSim :=
  let res := decide (sample < check_joint_probability sim [loc])
  (res, collapse loc res sim)

/-- `QuantumSim::measure`: resolve the id and defer to `measure_impl`. -/
def measure (sample : ℝ) (id : ℕ) (sim : QuantumSim) : Option (Bool × QuantumSim) :=
  match lookup sim.id_map id with
  | none => none
  | some loc => some (measure_impl sample loc sim)

/-- The duplicate scan over a sorted operand list: the `try_fold` in
`joint_probability`, `joint_measure` and `resolve_and_check_qubits`
breaks at the first adjacent equal pair. -/
def firstAdjacentDup : List ℕ → Option ℕ
  | [] => none
  | [_] => none
  | a :: b :: rest => if a = b then some b else firstAdjacentDup (b :: rest)

/-- Resolution of a list of ids through an id map, modelling
`iter().map(|id| *map.get(id).unwrap_or_else(panic))::collect()`: the
first unknown id aborts the whole resolution. -/
def resolveList (m : List (ℕ × ℕ)) : List ℕ → Option (List ℕ)
  | [] => some []
  | id :: rest =>
    match lookup m id, resolveList m rest with
    | some loc, some locs => some (loc :: locs)
    | _, _ => none

/-- Resolution of a list of ids through the id map (each `get` panicking
on an unknown id becomes an `Option` failure). -/
def resolveAll (sim : QuantumSim) (ids : List ℕ) : Option (List ℕ) :=
  resolveList sim.id_map ids

/-- `QuantumSim::joint_probability`: fails on a duplicate id in the sorted
target list or an unknown id, otherwise `check_joint_probability` over the
resolved locations. -/
def joint_probability (ids : List ℕ) (sim : QuantumSim) : Option ℝ :=
  let sorted_targets := List.insertionSort (· ≤ ·) ids
  if (firstAdjacentDup sorted_targets).isSome then none
  else
    match resolveAll sim ids with
    | none => none
    | some locs => some (check_joint_probability sim locs)

/-- `QuantumSim::joint_measure` with an explicit sample: duplicate check,
resolution, outcome `sample < joint parity probability`, joint collapse. -/
def joint_measure (sample : ℝ) (ids : List ℕ) (sim : QuantumSim) :
    Option (Bool × QuantumSim) :=
  let sorted_targets := List.insertionSort (· ≤ ·) ids
  if (firstAdjacentDup sorted_targets).isSome then none
  else
    match resolveAll sim ids with
    | none => none
    | some locs =>
      let res := decide (sample < check_joint_probability sim locs)
      some (res, joint_collapse locs res sim)

/-- `QuantumSim::swap_qubit_ids`: exchange the mapped locations of the two
ids, the store untouched. -/
def swap_qubit_ids (qubit1 qubit2 : ℕ) (sim : QuantumSim) : Option QuantumSim :=
  match lookup sim.id_map qubit1, lookup sim.id_map qubit2 with
  | some m1, some m2 =>
      some ⟨sim.state, insertEntry (insertEntry sim.id_map qubit1 m2) qubit2 m1⟩
  | _, _ => none

/-- The store rewrite of `QuantumSim::swap_qubit_state`: entries whose two
bits agree are reinserted unchanged, the others with both bits flipped. -/
def swap_qubit_state (st : List (ℕ × ℂ)) (qubit1 qubit2 : ℕ) : List (ℕ × ℂ) :=
  if qubit1 = qubit2 then st
  else
    st.foldl
      (fun accum kv =>
        if kv.1.testBit qubit1 = kv.1.testBit qubit2 then insertEntry accum kv.1 kv.2
        else
          insertEntry accum
            (setBitN (setBitN kv.1 qubit1 (! kv.1.testBit qubit1)) qubit2
              (! kv.1.testBit qubit2))
            kv.2)
      []

/-- `QuantumSim::release` with the internal measurement sample explicit:
swap the released qubit to the last location if needed, measure and
collapse there, drop the id, and if the outcome was one clear the vacated
bit from every surviving key. -/
def release (sample : ℝ) (id : ℕ) (sim : QuantumSim) : Option QuantumSim :=
  let n_qubits := sim.id_map.length
  match lookup sim.id_map id with
  | none => none
  | some loc =>
    let last_loc := n_qubits - 1
    let sim1 : Option QuantumSim :=
      if last_loc ≠ loc then
        match sim.id_map.find? fun p => p.2 == last_loc with
        | none => none
        | some lastEntry =>
          some ⟨swap_qubit_state sim.state loc last_loc,
            insertEntry (insertEntry sim.id_map lastEntry.1 loc) id last_loc⟩
      else some sim
    match sim1 with
    | none => none
    | some sim2 =>
      let m := measure_impl sample last_loc sim2
      let idm := eraseEntry m.2.id_map id
      let st :=
        if m.1 then
          let qubit := idm.length
          m.2.state.foldl
            (fun accum kv =>
              insertEntry accum (setBitN kv.1 qubit (! kv.1.testBit qubit)) kv.2) []
        else m.2.state
      some ⟨st, idm⟩

/-- `QuantumSim::resolve_and_check_qubits`: resolve target and controls,
then fail on the first adjacent duplicate location of the sorted combined
list. -/
def resolve_and_check_qubits (sim : QuantumSim) (target : ℕ) (ctls : List ℕ) :
    Option (ℕ × List ℕ) :=
  match lookup sim.id_map target with
  | none => none
  | some tloc =>
    match resolveList sim.id_map ctls with
    | none => none
    | some clocs =>
      let sorted_qubits := List.insertionSort (· ≤ ·) (clocs ++ [tloc])
      if (firstAdjacentDup sorted_qubits).isSome then none
      else some (tloc, clocs)

/-- `QuantumSim::controlled_gate`: the in-place per-entry transform engine.
Entries with all control bits set are replaced by `op entry target`; the
result is dropped when nearly zero. -/
def controlled_gate (ctls : List ℕ) (target : ℕ) (op : ℕ × ℂ → ℕ → ℕ × ℂ)
    (sim : QuantumSim) : Option QuantumSim :=
  match resolve_and_check_qubits sim target ctls with
  | none => none
  | some (tloc, clocs) =>
    some
      ⟨sim.state.foldl
        (fun accum kv =>
          let kv2 := if clocs.all fun c => kv.1.testBit c then op kv tloc else kv
          if ¬ isNearlyZero kv2.2 then insertEntry accum kv2.1 kv2.2 else accum)
        [],
      sim.id_map⟩

/-- `QuantumSim::x_transform`: flip the target bit. -/
def x_transform (kv : ℕ × ℂ) (target : ℕ) : ℕ × ℂ :=
  (setBitN kv.1 target (! kv.1.testBit target), kv.2)

/-- `QuantumSim::x`. -/
def x (target : ℕ) (sim : QuantumSim) : Option QuantumSim :=
  controlled_gate [] target x_transform sim

/-- `QuantumSim::mcx`. -/
def mcx (ctls : List ℕ) (target : ℕ) (sim : QuantumSim) : Option QuantumSim :=
  controlled_gate ctls target x_transform sim

/-- `QuantumSim::y_transform`: flip the target bit, multiply by `i` when
the new bit is one and by `-i` otherwise. -/
def y_transform (kv : ℕ × ℂ) (target : ℕ) : ℕ × ℂ :=
  let index := setBitN kv.1 target (! kv.1.testBit target)
  (index, kv.2 * if index.testBit target then Complex.I else -Complex.I)

/-- `QuantumSim::y`. -/
def y (target : ℕ) (sim : QuantumSim) : Option QuantumSim :=
  controlled_gate [] target y_transform sim

/-- `QuantumSim::mcy`. -/
def mcy (ctls : List ℕ) (target : ℕ) (sim : QuantumSim) : Option QuantumSim :=
  controlled_gate ctls target y_transform sim

/-- `QuantumSim::phase_transform`: multiply by `phase` when the target bit
is set. -/
def phase_transform (phase : ℂ) (kv : ℕ × ℂ) (target : ℕ) : ℕ × ℂ :=
  (kv.1, kv.2 * if kv.1.testBit target then phase else 1)

/-- `QuantumSim::mcphase` (the "G" gate). -/
def mcphase (ctls : List ℕ) (phase : ℂ) (target : ℕ) (sim : QuantumSim) :
    Option QuantumSim :=
  controlled_gate ctls target (fun kv tgt => phase_transform phase kv tgt) sim

/-- `QuantumSim::z_transform`. -/
def z_transform (kv : ℕ × ℂ) (target : ℕ) : ℕ × ℂ := phase_transform (-1) kv target

/-- `QuantumSim::z`. -/
def z (target : ℕ) (sim : QuantumSim) : Option QuantumSim :=
  controlled_gate [] target z_transform sim

/-- `QuantumSim::mcz`. -/
def mcz (ctls : List ℕ) (target : ℕ) (sim : QuantumSim) : Option QuantumSim :=
  controlled_gate ctls target z_transform sim

/-- `QuantumSim::s_transform`. -/
def s_transform (kv : ℕ × ℂ) (target : ℕ) : ℕ × ℂ :=
  phase_transform Complex.I kv target

/-- `QuantumSim::s`. -/
def s (target : ℕ) (sim : QuantumSim) : Option QuantumSim :=
  controlled_gate [] target s_transform sim

/-- `QuantumSim::mcs`. -/
def mcs (ctls : List ℕ) (target : ℕ) (sim : QuantumSim) : Option QuantumSim :=
  controlled_gate ctls target s_transform sim

/-- `QuantumSim::sadj_transform`. -/
def sadj_transform (kv : ℕ × ℂ) (target : ℕ) : ℕ × ℂ :=
  phase_transform (-Complex.I) kv target

/-- `QuantumSim::sadj`. -/
def sadj (target : ℕ) (sim : QuantumSim) : Option QuantumSim :=
  controlled_gate [] target sadj_transform sim

/-- `QuantumSim::mcsadj`. -/
def mcsadj (ctls : List ℕ) (target : ℕ) (sim : QuantumSim) : Option QuantumSim :=
  controlled_gate ctls target sadj_transform sim

/-- `QuantumSim::t_transform`: phase `(1/sqrt 2) + (1/sqrt 2) i`. -/
def t_transform (kv : ℕ × ℂ) (target : ℕ) : ℕ × ℂ :=
  phase_transform ⟨frac1Sqrt2, frac1Sqrt2⟩ kv target

/-- `QuantumSim::t`. -/
def t (target : ℕ) (sim : QuantumSim) : Option QuantumSim :=
  controlled_gate [] target t_transform sim

/-- `QuantumSim::mct`. -/
def mct (ctls : List ℕ) (target : ℕ) (sim : QuantumSim) : Option QuantumSim :=
  controlled_gate ctls target t_transform sim

/-- `QuantumSim::tadj_transform`: phase `(1/sqrt 2) - (1/sqrt 2) i`. -/
def tadj_transform (kv : ℕ × ℂ) (target : ℕ) : ℕ × ℂ :=
  phase_transform ⟨frac1Sqrt2, -frac1Sqrt2⟩ kv target

/-- `QuantumSim::tadj`. -/
def tadj (target : ℕ) (sim : QuantumSim) : Option QuantumSim :=
  controlled_gate [] target tadj_transform sim

/-- `QuantumSim::mctadj`. -/
def mctadj (ctls : List ℕ) (target : ℕ) (sim : QuantumSim) : Option QuantumSim :=
  controlled_gate ctls target tadj_transform sim

/-- `QuantumSim::rz_transform`: multiply by `exp(i (theta/2) (+-1))`
according to the target bit. -/
def rz_transform (kv : ℕ × ℂ) (theta : ℝ) (target : ℕ) : ℕ × ℂ :=
  (kv.1, kv.2 * Complex.exp ⟨0, theta / 2 * if kv.1.testBit target then 1 else -1⟩)

/-- `QuantumSim::rz`. -/
def rz (theta : ℝ) (target : ℕ) (sim : QuantumSim) : Option QuantumSim :=
  controlled_gate [] target (fun kv tgt => rz_transform kv theta tgt) sim

/-- `QuantumSim::mcrz`. -/
def mcrz (ctls : List ℕ) (theta : ℝ) (target : ℕ) (sim : QuantumSim) :
    Option QuantumSim :=
  controlled_gate ctls target (fun kv tgt => rz_transform kv theta tgt) sim

/-- The per-entry step of `QuantumSim::mch`: the no-superposition branch
inserts both outputs scaled by `1/sqrt 2`; the superposition branch, taken
only from the zero-bit member of the pair, inserts the merged sums when
they are not nearly zero; the one-bit member of a handled pair is skipped;
entries failing the control predicate are copied unchanged. -/
def mchEntry (old : List (ℕ × ℂ)) (target : ℕ) (clocs : List ℕ)
    (accum : List (ℕ × ℂ)) (kv : ℕ × ℂ) : List (ℕ × ℂ) :=
  let index := kv.1
  let value := kv.2
  if clocs.all fun c => index.testBit c then
    let flipped_index := index ^^^ (1 <<< target)
    if lookup old flipped_index = none then
      let zero_bit_index := setBitN index target false
      let a1 := insertEntry accum zero_bit_index (value * Complex.ofReal frac1Sqrt2)
      let one_bit_index := setBitN index target true
      insertEntry a1 one_bit_index
        (value * Complex.ofReal frac1Sqrt2 * if index.testBit target then -1 else 1)
    else if ! index.testBit target then
      let flipped_value := (lookup old flipped_index).getD 0
      let new_val1 := value + flipped_value
      let a1 :=
        if ¬ isNearlyZero new_val1 then
          insertEntry accum index (new_val1 * Complex.ofReal frac1Sqrt2)
        else accum
      let new_val2 := value - flipped_value
      if ¬ isNearlyZero new_val2 then
        insertEntry a1 (index ||| (1 <<< target)) (new_val2 * Complex.ofReal frac1Sqrt2)
      else a1
    else accum
  else insertEntry accum index value

/-- `QuantumSim::mch`: the cross-entry Hadamard, building a fresh store. -/
def mch (ctls : List ℕ) (target : ℕ) (sim : QuantumSim) : Option QuantumSim :=
  match resolve_and_check_qubits sim target ctls with
  | none => none
  | some (tloc, clocs) =>
    some ⟨sim.state.foldl (mchEntry sim.state tloc clocs) [], sim.id_map⟩

/-- `QuantumSim::h`. -/
def h (target : ℕ) (sim : QuantumSim) : Option QuantumSim := mch [] target sim

/-- The `m00` rotation coefficient, `cos(theta/2)`. -/
def rotationM00 (theta : ℝ) : ℂ := Complex.ofReal (Real.cos (theta / 2))

/-- The `m01` rotation coefficient,
`i sin(theta / -2)` times `-i` under a sign flip. -/
def rotationM01 (theta : ℝ) (sign_flip : Bool) : ℂ :=
  (⟨0, Real.sin (theta / -2)⟩ : ℂ) * if sign_flip then -Complex.I else 1

/-- The per-entry step of the non-degenerate branch of
`QuantumSim::mcrotation`, mirroring `mchEntry` with the rotation matrix
coefficients; the no-superposition branch inserts both outputs, the
superposition branch prunes nearly-zero merged values. -/
def mcrotationEntry (old : List (ℕ × ℂ)) (m00 m01 m10 : ℂ) (target : ℕ)
    (clocs : List ℕ) (accum : List (ℕ × ℂ)) (kv : ℕ × ℂ) : List (ℕ × ℂ) :=
  let index := kv.1
  let value := kv.2
  if clocs.all fun c => index.testBit c then
    let flipped_index := index ^^^ (1 <<< target)
    if lookup old flipped_index = none then
      if index.testBit target then
        insertEntry (insertEntry accum flipped_index (value * m01)) index (value * m00)
      else
        insertEntry (insertEntry accum index (value * m00)) flipped_index (value * m10)
    else if ! index.testBit target then
      let flipped_val := (lookup old flipped_index).getD 0
      let new_val1 := value * m00 + flipped_val * m01
      let a1 :=
        if ¬ isNearlyZero new_val1 then insertEntry accum index new_val1 else accum
      let new_val2 := value * m10 + flipped_val * m00
      if ¬ isNearlyZero new_val2 then insertEntry a1 flipped_index new_val2 else a1
    else accum
  else insertEntry accum index value

/-- `QuantumSim::mcrotation`: a Pauli flip when `m00` is nearly zero, a
no-op when `m01` is nearly zero, otherwise the cross-entry merge using the
rotation matrix. -/
def mcrotation (ctls : List ℕ) (theta : ℝ) (target : ℕ) (sign_flip : Bool)
    (sim : QuantumSim) : Option QuantumSim :=
  let m00 := rotationM00 theta
  let m01 := rotationM01 theta sign_flip
  if isNearlyZero m00 then
    if sign_flip then mcy ctls target sim else mcx ctls target sim
  else if isNearlyZero m01 then some sim
  else
    match resolve_and_check_qubits sim target ctls with
    | none => none
    | some (tloc, clocs) =>
      let m10 := m01 * if sign_flip then -1 else 1
      some ⟨sim.state.foldl (mcrotationEntry sim.state m00 m01 m10 tloc clocs) [],
        sim.id_map⟩

/-- `QuantumSim::rx`. -/
def rx (theta : ℝ) (target : ℕ) (sim : QuantumSim) : Option QuantumSim :=
  mcrotation [] theta target false sim

/-- `QuantumSim::mcrx`. -/
def mcrx (ctls : List ℕ) (theta : ℝ) (target : ℕ) (sim : QuantumSim) :
    Option QuantumSim :=
  mcrotation ctls theta target false sim

/-- `QuantumSim::ry`. -/
def ry (theta : ℝ) (target : ℕ) (sim : QuantumSim) : Option QuantumSim :=
  mcrotation [] theta target true sim

/-- `QuantumSim::mcry`. -/
def mcry (ctls : List ℕ) (theta : ℝ) (target : ℕ) (sim : QuantumSim) :
    Option QuantumSim :=
  mcrotation ctls theta target true sim

/-- The state-mutating relabeling loop of `QuantumSim::dump`: walk the ids
in ascending order and swap each one's location into id order (the
printing itself is diagnostic output and is not modelled). -/
def dump (sim : QuantumSim) : Option QuantumSim :=
  let sorted_keys := List.insertionSort (· ≤ ·) (keys sim.id_map)
  sorted_keys.enum.foldl
    (fun acc p =>
      match acc with
      | none => none
      | some cur =>
        match lookup cur.id_map p.2 with
        | none => none
        | some curLoc =>
          if p.1 ≠ curLoc then
            match cur.id_map.find? fun q => q.2 == p.1 with
            | none => none
            | some swapped =>
              some ⟨swap_qubit_state cur.state curLoc p.1,
                insertEntry (insertEntry cur.id_map swapped.1 curLoc) p.2 p.1⟩
          else some cur)
    (some sim)

/-- The sum of squared magnitudes of all stored amplitudes. -/
def totalMass (st : List (ℕ × ℂ)) : ℝ :=
  st.foldl (fun accum kv => accum + Complex.normSq kv.2) 0

/-- The squared-magnitude sum of a list of entries. -/
def sumNormSq (st : List (ℕ × ℂ)) : ℝ := (st.map fun kv => Complex.normSq kv.2).sum

/-- Every stored key uses only bit positions below the current qubit
count (spec invariant (c)). -/
def KeysBound (sim : QuantumSim) : Prop :=
  ∀ kv ∈ sim.state, kv.1 < 2 ^ sim.id_map.length

/-- Well-formedness of the identity map: ids are unique and the assigned
locations are exactly the dense range `[0, n)` (so the map is a bijection
between the live ids and the internal locations). -/
def IdMapWF (m : List (ℕ × ℕ)) : Prop :=
  (m.map Prod.fst).Nodup ∧ (m.map Prod.snd).Perm (List.range m.length)

/-- The inductive invariant carried through every public operation. -/
def Inv (sim : QuantumSim) : Prop := IdMapWF sim.id_map ∧ KeysBound sim

/-- The key rewrite performed by `swap_qubit_state` on a single basis
index: identity when the two bits agree, otherwise both bits flipped. -/
def swapKeyBits (q1 q2 k : ℕ) : ℕ :=
  if k.testBit q1 = k.testBit q2 then k
  else setBitN (setBitN k q1 (! k.testBit q1)) q2 (! k.testBit q2)

/-- One public mutating operation of the simulator, relating the state
before to the state after; the measurement samples are universally
quantified in place of the thread RNG. -/
inductive Step : QuantumSim → QuantumSim → Prop
  | allocate (sim : QuantumSim) : Step sim (allocate sim).2
  | release (sample : ℝ) (id : ℕ) (sim sim2 : QuantumSim) :
      release sample id sim = some sim2 → Step sim sim2
  | swap_qubit_ids (q1 q2 : ℕ) (sim sim2 : QuantumSim) :
      swap_qubit_ids q1 q2 sim = some sim2 → Step sim sim2
  | mcx (ctls : List ℕ) (target : ℕ) (sim sim2 : QuantumSim) :
      mcx ctls target sim = some sim2 → Step sim sim2
  | mcy (ctls : List ℕ) (target : ℕ) (sim sim2 : QuantumSim) :
      mcy ctls target sim = some sim2 → Step sim sim2
  | mcz (ctls : List ℕ) (target : ℕ) (sim sim2 : QuantumSim) :
      mcz ctls target sim = some sim2 → Step sim sim2
  | mcs (ctls : List ℕ) (target : ℕ) (sim sim2 : QuantumSim) :
      mcs ctls target sim = some sim2 → Step sim sim2
  | mcsadj (ctls : List ℕ) (target : ℕ) (sim sim2 : QuantumSim) :
      mcsadj ctls target sim = some sim2 → Step sim sim2
  | mct (ctls : List ℕ) (target : ℕ) (sim sim2 : QuantumSim) :
      mct ctls target sim = some sim2 → Step sim sim2
  | mctadj (ctls : List ℕ) (target : ℕ) (sim sim2 : QuantumSim) :
      mctadj ctls target sim = some sim2 → Step sim sim2
  | mcrz (ctls : List ℕ) (theta : ℝ) (target : ℕ) (sim sim2 : QuantumSim) :
      mcrz ctls theta target sim = some sim2 → Step sim sim2
  | mcphase (ctls : List ℕ) (phase : ℂ) (target : ℕ) (sim sim2 : QuantumSim) :
      mcphase ctls phase target sim = some sim2 → Step sim sim2
  | mch (ctls : List ℕ) (target : ℕ) (sim sim2 : QuantumSim) :
      mch ctls target sim = some sim2 → Step sim sim2
  | mcrotation (ctls : List ℕ) (theta : ℝ) (target : ℕ) (sign_flip : Bool)
      (sim sim2 : QuantumSim) :
      mcrotation ctls theta target sign_flip sim = some sim2 → Step sim sim2
  | measure (sample : ℝ) (id : ℕ) (b : Bool) (sim sim2 : QuantumSim) :
      measure sample id sim = some (b, sim2) → Step sim sim2
  | joint_measure (sample : ℝ) (ids : List ℕ) (b : Bool) (sim sim2 : QuantumSim) :
      joint_measure sample ids sim = some (b, sim2) → Step sim sim2
  | dump (sim sim2 : QuantumSim) : dump sim = some sim2 → Step sim sim2

/-- The simulator states reachable from a freshly created simulator by
public operations. -/
def Reachable (sim : QuantumSim) : Prop :=
  Relation.ReflTransGen Step QuantumSim.new sim

end QSim

namespace QSim

/-! ### Association-list lemmas -/

theorem lookup_eq_none_iff {β : Type} (m : List (ℕ × β)) (k : ℕ) :
    lookup m k = none ↔ k ∉ keys m := by
  induction m with
  | nil => simp [lookup, keys]
  | cons e rest ih =>
    simp only [lookup, keys, List.map_cons, List.mem_cons]
    by_cases hk : e.1 = k
    · simp [hk]
    · simp only [if_neg hk]
      rw [ih]
      constructor
      · intro hn hor
        rcases hor with hor | hor
        · exact hk hor.symm
        · exact hn (by simpa [keys] using hor)
      · intro hn hmem
        exact hn (Or.inr (by simpa [keys] using hmem))

theorem lookup_isSome_iff {β : Type} (m : List (ℕ × β)) (k : ℕ) :
    (lookup m k).isSome ↔ k ∈ keys m := by
  rw [← not_iff_not, Option.not_isSome_iff_eq_none]
  exact lookup_eq_none_iff m k

theorem lookup_mem {β : Type} (m : List (ℕ × β)) (k : ℕ) (v : β)
    (hl : lookup m k = some v) : (k, v) ∈ m := by
  induction m with
  | nil => simp [lookup] at hl
  | cons e rest ih =>
    by_cases hk : e.1 = k <;> simp [lookup, hk] at hl
    · rw [List.mem_cons, ← hk, ← hl]
      left
      rfl
    · exact List.mem_cons_of_mem _ (ih hl)

theorem lookup_insertEntry_self {β : Type} (m : List (ℕ × β)) (k : ℕ) (v : β) :
    lookup (insertEntry m k v) k = some v := by
  induction m with
  | nil => simp [insertEntry, lookup]
  | cons e rest ih =>
    by_cases hk : e.1 = k <;> simp [insertEntry, lookup, hk, ih]

theorem lookup_insertEntry_ne {β : Type} (m : List (ℕ × β)) (k k2 : ℕ) (v : β)
    (hne : k2 ≠ k) : lookup (insertEntry m k v) k2 = lookup m k2 := by
  induction m with
  | nil =>
    simp only [insertEntry, lookup]
    rw [if_neg (fun hh => hne hh.symm)]
  | cons e rest ih =>
    by_cases hk : e.1 = k
    · simp only [insertEntry, if_pos hk, lookup]
      rw [if_neg (fun hh => hne hh.symm), if_neg (by rw [hk]; exact fun hh => hne hh.symm)]
    · simp only [insertEntry, if_neg hk, lookup]
      by_cases hk2 : e.1 = k2
      · rw [if_pos hk2, if_pos hk2]
      · rw [if_neg hk2, if_neg hk2, ih]

theorem insertEntry_of_lookup_none {β : Type} (m : List (ℕ × β)) (k : ℕ) (v : β)
    (hnone : lookup m k = none) : insertEntry m k v = m ++ [(k, v)] := by
  induction m with
  | nil => simp [insertEntry]
  | cons e rest ih =>
    by_cases hk : e.1 = k <;> simp [insertEntry, lookup, hk] at hnone ⊢
    exact ih hnone

theorem mem_insertEntry {β : Type} (m : List (ℕ × β)) (k : ℕ) (v : β) (e : ℕ × β)
    (he : e ∈ insertEntry m k v) : e = (k, v) ∨ e ∈ m := by
  induction m with
  | nil => simpa [insertEntry] using he
  | cons f rest ih =>
    by_cases hk : f.1 = k
    · rw [insertEntry, if_pos hk] at he
      rcases List.mem_cons.1 he with he | he
      · exact Or.inl he
      · exact Or.inr (List.mem_cons_of_mem _ he)
    · rw [insertEntry, if_neg hk] at he
      rcases List.mem_cons.1 he with he | he
      · exact Or.inr (he ▸ List.mem_cons_self _ _)
      · rcases ih he with hh | hh
        · exact Or.inl hh
        · exact Or.inr (List.mem_cons_of_mem _ hh)

theorem keys_insertEntry_of_mem {β : Type} (m : List (ℕ × β)) (k : ℕ) (v : β)
    (hmem : k ∈ keys m) : keys (insertEntry m k v) = keys m := by
  induction m with
  | nil => simp [keys] at hmem
  | cons e rest ih =>
    by_cases hk : e.1 = k
    · simp [insertEntry, if_pos hk, keys, hk]
    · simp only [insertEntry, if_neg hk, keys, List.map_cons]
      have hmem2 : k ∈ keys rest := by
        rcases (by simpa [keys] using hmem : k = e.1 ∨ k ∈ keys rest) with hh | hh
        · exact absurd hh.symm hk
        · exact hh
      rw [show List.map Prod.fst (insertEntry rest k v) = keys (insertEntry rest k v) from rfl,
        ih hmem2, keys]

theorem keys_insertEntry_of_not_mem {β : Type} (m : List (ℕ × β)) (k : ℕ) (v : β)
    (hmem : k ∉ keys m) : keys (insertEntry m k v) = keys m ++ [k] := by
  rw [insertEntry_of_lookup_none m k v ((lookup_eq_none_iff m k).2 hmem)]
  simp [keys]

theorem length_insertEntry_of_mem {β : Type} (m : List (ℕ × β)) (k : ℕ) (v : β)
    (hmem : k ∈ keys m) : (insertEntry m k v).length = m.length := by
  have h1 : (keys (insertEntry m k v)).length = (keys m).length := by
    rw [keys_insertEntry_of_mem m k v hmem]
  simpa [keys] using h1

theorem length_insertEntry_of_not_mem {β : Type} (m : List (ℕ × β)) (k : ℕ) (v : β)
    (hmem : k ∉ keys m) : (insertEntry m k v).length = m.length + 1 := by
  have h1 : (keys (insertEntry m k v)).length = (keys m).length + 1 := by
    rw [keys_insertEntry_of_not_mem m k v hmem]; simp
  simpa [keys] using h1

theorem forall_insertEntry {β : Type} (P : ℕ × β → Prop) (m : List (ℕ × β)) (k : ℕ)
    (v : β) (hm : ∀ e ∈ m, P e) (hkv : P (k, v)) :
    ∀ e ∈ insertEntry m k v, P e := by
  intro e he
  rcases mem_insertEntry m k v e he with rfl | he
  · exact hkv
  · exact hm e he

theorem mem_eraseEntry {β : Type} (m : List (ℕ × β)) (k : ℕ) (e : ℕ × β)
    (he : e ∈ eraseEntry m k) : e ∈ m := by
  induction m with
  | nil => simp [eraseEntry] at he
  | cons f rest ih =>
    by_cases hk : f.1 = k
    · rw [eraseEntry, if_pos hk] at he
      exact List.mem_cons_of_mem _ he
    · rw [eraseEntry, if_neg hk] at he
      rcases List.mem_cons.1 he with he | he
      · exact he ▸ List.mem_cons_self _ _
      · exact List.mem_cons_of_mem _ (ih he)

/-! ### Bit lemmas -/

theorem one_shiftLeft_eq (i : ℕ) : 1 <<< i = 2 ^ i := Nat.one_shiftLeft i

theorem testBit_setBitN_self (k i : ℕ) (b : Bool) : (setBitN k i b).testBit i = b := by
  unfold setBitN
  by_cases hb : k.testBit i = b <;> simp [hb, one_shiftLeft_eq, Nat.testBit_xor]
  cases b <;> simp_all

theorem testBit_setBitN_ne (k i j : ℕ) (b : Bool) (hij : j ≠ i) :
    (setBitN k i b).testBit j = k.testBit j := by
  unfold setBitN
  by_cases hb : k.testBit i = b <;>
    simp [hb, one_shiftLeft_eq, Nat.testBit_xor, Nat.testBit_two_pow_of_ne hij.symm]

theorem setBitN_lt (k i n : ℕ) (b : Bool) (hk : k < 2 ^ n) (hi : i < n) :
    setBitN k i b < 2 ^ n := by
  unfold setBitN
  by_cases hb : k.testBit i = b <;> simp [hb, one_shiftLeft_eq]
  · exact hk
  · exact Nat.xor_lt_two_pow hk (Nat.pow_lt_pow_right one_lt_two hi)

theorem xor_two_pow_lt (k i n : ℕ) (hk : k < 2 ^ n) (hi : i < n) :
    k ^^^ 2 ^ i < 2 ^ n :=
  Nat.xor_lt_two_pow hk (Nat.pow_lt_pow_right one_lt_two hi)

theorem or_two_pow_lt (k i n : ℕ) (hk : k < 2 ^ n) (hi : i < n) :
    k ||| 2 ^ i < 2 ^ n :=
  Nat.or_lt_two_pow hk (Nat.pow_lt_pow_right one_lt_two hi)

theorem countOnes_succ (n : ℕ) :
    countOnes (n + 1) = (n + 1) % 2 + countOnes ((n + 1) / 2) := by
  rw [countOnes]

theorem countOnes_zero : countOnes 0 = 0 := by rw [countOnes]

theorem countOnes_one : countOnes 1 = 1 := by
  rw [show (1:ℕ) = 0 + 1 from rfl, countOnes_succ]
  norm_num [countOnes_zero]

theorem countOnes_two_pow (i : ℕ) : countOnes (2 ^ i) = 1 := by
  induction i with
  | zero => simpa using countOnes_one
  | succ j ih =>
    have hpos : (0:ℕ) < 2 ^ (j + 1) := by positivity
    obtain ⟨m, hm⟩ : ∃ m, 2 ^ (j + 1) = m + 1 := ⟨2 ^ (j + 1) - 1, by omega⟩
    rw [hm, countOnes_succ, ← hm]
    have hmod : 2 ^ (j + 1) % 2 = 0 := by
      simp [Nat.pow_succ, Nat.mul_mod_left]
    have hdiv : 2 ^ (j + 1) / 2 = 2 ^ j := by
      rw [Nat.pow_succ, Nat.mul_div_cancel _ (by omega : (0:ℕ) < 2)]
    rw [hmod, hdiv, ih]

theorem locsMask_single (loc : ℕ) : locsMask [loc] = 2 ^ loc := by
  simp [locsMask, one_shiftLeft_eq]

theorem maskParity_two_pow (k loc : ℕ) : maskParity k (2 ^ loc) = k.testBit loc := by
  unfold maskParity
  rw [Nat.and_two_pow]
  cases hb : k.testBit loc <;>
    simp [hb, countOnes_two_pow, countOnes_zero]

end QSim

namespace QSim

/-! ### Sum lemmas for the mass and parity-probability folds -/

theorem sumNormSq_nil : sumNormSq [] = 0 := by simp [sumNormSq]

theorem sumNormSq_cons (kv : ℕ × ℂ) (st : List (ℕ × ℂ)) :
    sumNormSq (kv :: st) = Complex.normSq kv.2 + sumNormSq st := by
  simp [sumNormSq]

theorem sumNormSq_append (st1 st2 : List (ℕ × ℂ)) :
    sumNormSq (st1 ++ st2) = sumNormSq st1 + sumNormSq st2 := by
  simp [sumNormSq]

theorem sumNormSq_nonneg (st : List (ℕ × ℂ)) : 0 ≤ sumNormSq st := by
  refine List.sum_nonneg ?_
  intro a ha
  rcases List.mem_map.1 ha with ⟨kv, _, rfl⟩
  exact Complex.normSq_nonneg kv.2

theorem foldl_add_shift (f : ℕ × ℂ → ℝ) (st : List (ℕ × ℂ)) (a : ℝ) :
    st.foldl (fun accum kv => accum + f kv) a = a + (st.map f).sum := by
  induction st generalizing a with
  | nil => simp
  | cons e rest ih => simp [List.foldl_cons, ih, add_assoc]

theorem totalMass_eq_sumNormSq (st : List (ℕ × ℂ)) : totalMass st = sumNormSq st := by
  unfold totalMass sumNormSq
  simpa using foldl_add_shift (fun kv => Complex.normSq kv.2) st 0

theorem cjp_fold_eq (mask : ℕ) (st : List (ℕ × ℂ)) (a : ℝ) :
    st.foldl
      (fun accum kv => if maskParity kv.1 mask then accum + Complex.normSq kv.2 else accum) a
      = a + sumNormSq (st.filter fun kv => maskParity kv.1 mask) := by
  induction st generalizing a with
  | nil => simp [sumNormSq_nil]
  | cons e rest ih =>
    cases hp : maskParity e.1 mask <;>
      simp [List.foldl_cons, hp, ih, List.filter_cons, sumNormSq_cons, add_assoc]

theorem check_joint_probability_eq (sim : QuantumSim) (locs : List ℕ) :
    check_joint_probability sim locs
      = sumNormSq (sim.state.filter fun kv => maskParity kv.1 (locsMask locs)) := by
  unfold check_joint_probability
  simpa using cjp_fold_eq (locsMask locs) sim.state 0

theorem check_joint_probability_nonneg (sim : QuantumSim) (locs : List ℕ) :
    0 ≤ check_joint_probability sim locs := by
  rw [check_joint_probability_eq]
  exact sumNormSq_nonneg _

theorem check_joint_probability_le_totalMass (sim : QuantumSim) (locs : List ℕ) :
    check_joint_probability sim locs ≤ totalMass sim.state := by
  rw [check_joint_probability_eq, totalMass_eq_sumNormSq]
  exact List.Sublist.sum_le_sum
    (List.Sublist.map _ (List.filter_sublist sim.state))
    (by
      intro a ha
      rcases List.mem_map.1 ha with ⟨kv, _, rfl⟩
      exact Complex.normSq_nonneg kv.2)

/-! ### The collapse fold -/

theorem collapse_fold_spec (mask : ℕ) (val : Bool) (st acc0 : List (ℕ × ℂ)) (d0 : ℝ)
    (hdisj : ∀ kv ∈ st, kv.1 ∉ keys acc0) (hnd : (keys st).Nodup) :
    st.foldl
      (fun (acc : List (ℕ × ℂ) × ℝ) kv =>
        if maskParity kv.1 mask = val then
          (insertEntry acc.1 kv.1 kv.2, acc.2 + Complex.normSq kv.2)
        else acc)
      (acc0, d0)
      = (acc0 ++ st.filter (fun kv => maskParity kv.1 mask == val),
        d0 + sumNormSq (st.filter fun kv => maskParity kv.1 mask == val)) := by
  induction st generalizing acc0 d0 with
  | nil => simp [sumNormSq_nil]
  | cons e rest ih =>
    have hek : e.1 ∉ keys acc0 := hdisj e (List.mem_cons_self _ _)
    have hnd2 : e.1 ∉ keys rest ∧ (keys rest).Nodup := by
      simpa [keys, List.nodup_cons] using hnd
    have henotrest : ∀ kv ∈ rest, kv.1 ≠ e.1 := by
      intro kv hkv heq
      exact hnd2.1 (heq ▸ List.mem_map_of_mem Prod.fst hkv)
    rw [List.foldl_cons]
    by_cases hp : maskParity e.1 mask = val
    · rw [if_pos hp]
      have hins : insertEntry acc0 e.1 e.2 = acc0 ++ [e] := by
        rw [insertEntry_of_lookup_none acc0 e.1 e.2 ((lookup_eq_none_iff _ _).2 hek)]
      rw [hins,
        ih (acc0 ++ [e]) (d0 + Complex.normSq e.2)
          (by
            intro kv hkv
            simp only [keys, List.map_append, List.mem_append]
            rintro (hh | hh)
            · exact hdisj kv (List.mem_cons_of_mem _ hkv) hh
            · exact henotrest kv hkv (by simpa using hh))
          hnd2.2]
      rw [List.filter_cons_of_pos (by simpa using hp), sumNormSq_cons]
      simp only [Prod.mk.injEq]
      exact ⟨by rw [List.append_assoc]; rfl, by ring⟩
    · rw [if_neg hp]
      rw [ih acc0 d0 (fun kv hkv => hdisj kv (List.mem_cons_of_mem _ hkv)) hnd2.2]
      rw [List.filter_cons_of_neg (by simpa using hp)]

/-- The explicit form of `joint_collapse` on a duplicate-free store: keep
exactly the entries whose parity matches, rescale them by one over the
square root of their accumulated squared-magnitude mass. -/
theorem joint_collapse_eq (locs : List ℕ) (val : Bool) (sim : QuantumSim)
    (hnd : (keys sim.state).Nodup) :
    joint_collapse locs val sim
      = ⟨((sim.state.filter fun kv => maskParity kv.1 (locsMask locs) == val).map
            fun kv => (kv.1, kv.2 * Complex.ofReal (1 / Real.sqrt
              (sumNormSq (sim.state.filter
                fun kv => maskParity kv.1 (locsMask locs) == val))))),
          sim.id_map⟩ := by
  simp only [joint_collapse]
  rw [collapse_fold_spec (locsMask locs) val sim.state [] 0 (by simp [keys]) hnd]
  simp

end QSim

namespace QSim

/-- Resolution of a no-control gate application at a live target. -/
theorem resolve_nil_ok (sim : QuantumSim) (target tloc : ℕ)
    (hl : lookup sim.id_map target = some tloc) :
    resolve_and_check_qubits sim target [] = some (tloc, []) := by
  simp [resolve_and_check_qubits, hl, resolveList, List.insertionSort,
    List.orderedInsert, firstAdjacentDup]

end QSim

namespace QSim

theorem sumNormSq_map_scale (st : List (ℕ × ℂ)) (c : ℂ) :
    sumNormSq (st.map fun kv => (kv.1, kv.2 * c)) = Complex.normSq c * sumNormSq st := by
  induction st with
  | nil => simp [sumNormSq_nil]
  | cons e rest ih =>
    simp only [List.map_cons, sumNormSq_cons, ih, Complex.normSq_mul]
    ring

theorem joint_collapse_id_map (locs : List ℕ) (val : Bool) (sim : QuantumSim) :
    (joint_collapse locs val sim).id_map = sim.id_map := rfl

/-- After `joint_collapse` on a duplicate-free store with positive
retained mass, the total squared-magnitude mass is exactly one. -/
theorem totalMass_joint_collapse (locs : List ℕ) (val : Bool) (sim : QuantumSim)
    (hnd : (keys sim.state).Nodup)
    (hpos : 0 < sumNormSq (sim.state.filter
      fun kv => maskParity kv.1 (locsMask locs) == val)) :
    totalMass (joint_collapse locs val sim).state = 1 := by
  rw [joint_collapse_eq locs val sim hnd]
  rw [totalMass_eq_sumNormSq]
  rw [show (1 : ℝ) / Real.sqrt (sumNormSq (sim.state.filter
      fun kv => maskParity kv.1 (locsMask locs) == val)) =
      (Real.sqrt (sumNormSq (sim.state.filter
        fun kv => maskParity kv.1 (locsMask locs) == val)))⁻¹ from one_div _]
  rw [sumNormSq_map_scale]
  rw [Complex.normSq_ofReal]
  rw [← Real.sqrt_inv, Real.mul_self_sqrt (by positivity)]
  field_simp

/-- The parity probability of the collapsed state at the collapse mask is
exactly one for outcome `true` (given positive retained mass) and exactly
zero for outcome `false`. -/
theorem cjp_joint_collapse (locs : List ℕ) (val : Bool) (sim : QuantumSim)
    (hnd : (keys sim.state).Nodup)
    (hpos : val = true → 0 < sumNormSq (sim.state.filter
      fun kv => maskParity kv.1 (locsMask locs) == val)) :
    check_joint_probability (joint_collapse locs val sim) locs
      = if val then 1 else 0 := by
  rw [check_joint_probability_eq]
  rw [show (joint_collapse locs val sim).state
      = ((sim.state.filter fun kv => maskParity kv.1 (locsMask locs) == val).map
          fun kv => (kv.1, kv.2 * Complex.ofReal (1 / Real.sqrt
            (sumNormSq (sim.state.filter
              fun kv => maskParity kv.1 (locsMask locs) == val))))) from
    congrArg QuantumSim.state (joint_collapse_eq locs val sim hnd)]
  rw [List.filter_map]
  cases val with
  | false =>
    rw [show List.filter ((fun kv => maskParity kv.1 (locsMask locs)) ∘
          fun kv => (kv.1, kv.2 * Complex.ofReal (1 / Real.sqrt (sumNormSq
            (sim.state.filter fun kv => maskParity kv.1 (locsMask locs) == false)))))
          (sim.state.filter fun kv => maskParity kv.1 (locsMask locs) == false) = [] from ?_]
    · simp [sumNormSq_nil]
    · rw [List.filter_eq_nil_iff]
      intro kv hkv
      have := List.of_mem_filter hkv
      simp only [Function.comp] at this ⊢
      simp only [beq_iff_eq] at this
      simp [this]
  | true =>
    rw [show List.filter ((fun kv => maskParity kv.1 (locsMask locs)) ∘
          fun kv => (kv.1, kv.2 * Complex.ofReal (1 / Real.sqrt (sumNormSq
            (sim.state.filter fun kv => maskParity kv.1 (locsMask locs) == true)))))
          (sim.state.filter fun kv => maskParity kv.1 (locsMask locs) == true)
          = sim.state.filter (fun kv => maskParity kv.1 (locsMask locs) == true) from ?_]
    · have hp := hpos rfl
      rw [sumNormSq_map_scale, Complex.normSq_ofReal]
      rw [show (1 : ℝ) / Real.sqrt (sumNormSq (sim.state.filter
          fun kv => maskParity kv.1 (locsMask locs) == true)) =
          (Real.sqrt (sumNormSq (sim.state.filter
            fun kv => maskParity kv.1 (locsMask locs) == true)))⁻¹ from one_div _]
      rw [← Real.sqrt_inv, Real.mul_self_sqrt (by positivity)]
      simp only [if_true]
      field_simp
      have hp2 : 0 < sumNormSq (List.filter
          (fun kv => maskParity kv.1 (locsMask locs)) sim.state) := by
        simpa using hp
      exact div_self (ne_of_gt hp2)
    · rw [List.filter_eq_self]
      intro kv hkv
      have := List.of_mem_filter hkv
      simp only [beq_iff_eq] at this
      simp [Function.comp, this]

end QSim

namespace QSim

/-- `joint_probability` at a single live id resolves to its location. -/
theorem joint_probability_single (sim : QuantumSim) (id loc : ℕ)
    (hl : lookup sim.id_map id = some loc) :
    joint_probability [id] sim = some (check_joint_probability sim [loc]) := by
  simp [joint_probability, firstAdjacentDup, List.insertionSort, List.orderedInsert,
    resolveAll, resolveList, hl]

/-- A successful `joint_probability` at a single id yields a live location. -/
theorem joint_probability_single_inv (sim : QuantumSim) (id : ℕ) (r : ℝ)
    (hjp : joint_probability [id] sim = some r) :
    ∃ loc, lookup sim.id_map id = some loc ∧ check_joint_probability sim [loc] = r := by
  cases hl : lookup sim.id_map id with
  | none =>
    rw [joint_probability] at hjp
    simp [firstAdjacentDup, List.insertionSort, List.orderedInsert, resolveAll,
      resolveList, hl] at hjp
  | some loc =>
    rw [joint_probability_single sim id loc hl] at hjp
    exact ⟨loc, rfl, by injection hjp⟩

end QSim

namespace QSim

/-- C10: when the single-qubit parity probability of a live qubit is 0.0,
`measure` returns `false` for every nonnegative sample (the comparison
`sample < probability` is strict), so the outcome is identical across any
two runs regardless of the drawn samples. -/
theorem c10_measure_deterministic (sim : QuantumSim) (id : ℕ) (s1 s2 : ℝ)
    (hjp : joint_probability [id] sim = some 0)
    (h1 : 0 ≤ s1) (h2 : 0 ≤ s2) :
    (measure s1 id sim).map Prod.fst = some false ∧
      (measure s1 id sim).map Prod.fst = (measure s2 id sim).map Prod.fst := by
  obtain ⟨loc, hl, hc⟩ := joint_probability_single_inv sim id 0 hjp
  have hm : ∀ sm : ℝ, 0 ≤ sm → (measure sm id sim).map Prod.fst = some false := by
    intro sm hsm
    rw [measure, hl]
    simp only [measure_impl, Option.map_some, hc]
    rw [decide_eq_false (not_lt.2 hsm)]
    simp
  exact ⟨hm s1 h1, by rw [hm s1 h1, hm s2 h2]⟩

/-- Witness for C10 at the freshly allocated one-qubit simulator and the
samples 0 and 1/2. -/
theorem c10_witness :
    joint_probability [0] (⟨[(0, 1)], [(0, 0)]⟩ : QuantumSim) = some 0 ∧
      (0:ℝ) ≤ 0 ∧ (0:ℝ) ≤ 1/2 ∧
      (measure 0 0 (⟨[(0, 1)], [(0, 0)]⟩ : QuantumSim)).map Prod.fst = some false ∧
      (measure 0 0 (⟨[(0, 1)], [(0, 0)]⟩ : QuantumSim)).map Prod.fst
        = (measure (1/2) 0 (⟨[(0, 1)], [(0, 0)]⟩ : QuantumSim)).map Prod.fst := by
  have hjp : joint_probability [0] (⟨[(0, 1)], [(0, 0)]⟩ : QuantumSim) = some 0 := by
    rw [joint_probability_single _ 0 0 (by simp [lookup])]
    rw [check_joint_probability_eq]
    have hmp : maskParity 0 (locsMask [0]) = false := by
      rw [locsMask_single, maskParity_two_pow]
      simp
    simp [hmp, sumNormSq_nil]
  have hmain := c10_measure_deterministic ⟨[(0, 1)], [(0, 0)]⟩ 0 0 (1/2) hjp
    le_rfl (by norm_num)
  exact ⟨hjp, le_rfl, by norm_num, hmain.1, hmain.2⟩

end QSim

namespace QSim

theorem normSq_rotationM00 (theta : ℝ) :
    Complex.normSq (rotationM00 theta) = Real.cos (theta / 2) ^ 2 := by
  rw [rotationM00, Complex.normSq_ofReal, sq]

theorem normSq_rotationM01 (theta : ℝ) (sign_flip : Bool) :
    Complex.normSq (rotationM01 theta sign_flip) = Real.sin (theta / 2) ^ 2 := by
  rw [rotationM01, Complex.normSq_mul, Complex.normSq_mk]
  have hs : Real.sin (theta / -2) = -Real.sin (theta / 2) := by
    rw [show theta / -2 = -(theta / 2) by ring, Real.sin_neg]
  cases sign_flip <;> simp [hs] <;> ring

/-- C6: the degenerate-angle shortcuts of `mcrotation`: when `m00` is
nearly zero the rotation is exactly the multi-controlled Pauli flip
(`mcy` under a sign flip, `mcx` otherwise), and when `m01` is nearly zero
it returns the state unchanged. -/
theorem c6_degenerate_rotation (ctls : List ℕ) (theta : ℝ) (target : ℕ)
    (sign_flip : Bool) (sim : QuantumSim) :
    (isNearlyZero (rotationM00 theta) →
      mcrotation ctls theta target sign_flip sim
        = if sign_flip then mcy ctls target sim else mcx ctls target sim) ∧
    (isNearlyZero (rotationM01 theta sign_flip) →
      mcrotation ctls theta target sign_flip sim = some sim) := by
  constructor
  · intro h0
    rw [mcrotation]
    simp only [if_pos h0]
  · intro h1
    have hnot0 : ¬ isNearlyZero (rotationM00 theta) := by
      rw [isNearlyZero, normSq_rotationM00, not_lt]
      rw [isNearlyZero, normSq_rotationM01] at h1
      have hpyth := Real.sin_sq_add_cos_sq (theta / 2)
      rw [epsilon] at h1 ⊢
      nlinarith [sq_nonneg (Real.sin (theta / 2))]
    rw [mcrotation]
    simp only [if_neg hnot0, if_pos h1]

/-- Witness for C6 at the angles pi (a pure Pauli flip) and 0 (the
identity). -/
theorem c6_witness :
    mcrotation [] Real.pi 0 false QuantumSim.new = mcx [] 0 QuantumSim.new ∧
      mcrotation [] 0 0 false QuantumSim.new = some QuantumSim.new := by
  constructor
  · have h0 : isNearlyZero (rotationM00 Real.pi) := by
      rw [isNearlyZero, normSq_rotationM00, Real.cos_pi_div_two]
      rw [epsilon]
      norm_num
    exact (c6_degenerate_rotation [] Real.pi 0 false QuantumSim.new).1 h0
  · have h1 : isNearlyZero (rotationM01 0 false) := by
      rw [isNearlyZero, normSq_rotationM01]
      rw [epsilon]
      norm_num
    exact (c6_degenerate_rotation [] 0 0 false QuantumSim.new).2 h1

end QSim

namespace QSim

/-! ### A concrete reachable run: allocate, x, mcphase with phase 2 -/

theorem x_ground : x 0 ⟨[(0, 1)], [(0, 0)]⟩ = some ⟨[(1, 1)], [(0, 0)]⟩ := by
  rw [x, controlled_gate, resolve_nil_ok _ 0 0 (by simp [lookup])]
  norm_num [x_transform, setBitN, isNearlyZero, epsilon, List.foldl_cons, List.foldl_nil,
    insertEntry]

theorem mcx_ground : mcx [] 0 ⟨[(0, 1)], [(0, 0)]⟩ = some ⟨[(1, 1)], [(0, 0)]⟩ :=
  x_ground

theorem mcphase_two_ground :
    mcphase [] 2 0 ⟨[(1, 1)], [(0, 0)]⟩ = some ⟨[(1, 2)], [(0, 0)]⟩ := by
  rw [mcphase, controlled_gate, resolve_nil_ok _ 0 0 (by simp [lookup])]
  norm_num [phase_transform, isNearlyZero, epsilon, List.foldl_cons, List.foldl_nil,
    insertEntry, Complex.normSq_mul]

theorem reach_one_qubit : Reachable ⟨[(0, 1)], [(0, 0)]⟩ :=
  Relation.ReflTransGen.single (Step.allocate QuantumSim.new)

theorem reach_flipped : Reachable ⟨[(1, 1)], [(0, 0)]⟩ :=
  Relation.ReflTransGen.tail reach_one_qubit (Step.mcx [] 0 _ _ mcx_ground)

theorem reach_scaled : Reachable ⟨[(1, 2)], [(0, 0)]⟩ :=
  Relation.ReflTransGen.tail reach_flipped (Step.mcphase [] 2 0 _ _ mcphase_two_ground)

theorem normSq_two : Complex.normSq 2 = 4 := by
  rw [show (2:ℂ) = Complex.ofReal 2 by norm_num, Complex.normSq_ofReal]
  norm_num

theorem totalMass_scaled : totalMass ([((1:ℕ), (2:ℂ))]) = 4 := by
  rw [totalMass_eq_sumNormSq, sumNormSq_cons, sumNormSq_nil, normSq_two]
  norm_num

theorem maskParity_one_one : maskParity 1 1 = true := by
  have := maskParity_two_pow 1 0
  simpa using this

theorem jp_scaled : joint_probability [0] ⟨[(1, 2)], [(0, 0)]⟩ = some 4 := by
  rw [joint_probability_single _ 0 0 (by simp [lookup])]
  rw [check_joint_probability_eq]
  have hmp : maskParity 1 (locsMask [0]) = true := by
    rw [locsMask_single]
    simpa using maskParity_one_one
  simp [hmp, sumNormSq_cons, sumNormSq_nil, normSq_two]
  norm_num

theorem jp_ground : joint_probability [0] (⟨[(0, 1)], [(0, 0)]⟩ : QuantumSim) = some 0 := by
  rw [joint_probability_single _ 0 0 (by simp [lookup])]
  rw [check_joint_probability_eq]
  have hmp : maskParity 0 (locsMask [0]) = false := by
    rw [locsMask_single, maskParity_two_pow]
    simp
  simp [hmp, sumNormSq_nil]

end QSim

namespace QSim

/-- C1 (counterexample): the state reached by allocate; x; is reachable,
applying the public gate `mcphase` with phase 2 to it completes, and the
resulting stored mass is 4, farther than 1e-10 from 1. -/
theorem c1_counterexample :
    Reachable ⟨[(1, 1)], [(0, 0)]⟩ ∧
      mcphase [] 2 0 ⟨[(1, 1)], [(0, 0)]⟩ = some ⟨[(1, 2)], [(0, 0)]⟩ ∧
      (1 / 10 ^ 10 : ℝ) < |totalMass ((⟨[(1, 2)], [(0, 0)]⟩ : QuantumSim)).state - 1| := by
  refine ⟨reach_flipped, mcphase_two_ground, ?_⟩
  rw [show ((⟨[(1, 2)], [(0, 0)]⟩ : QuantumSim)).state = [((1:ℕ), (2:ℂ))] from rfl,
    totalMass_scaled]
  norm_num

/-- C1 (amended): `joint_collapse` rescales every retained amplitude by
one over the square root of the retained squared-magnitude mass, and when
that mass is positive the post-collapse mass is exactly one (gates do not
renormalize, and `mcphase` with a non-unit phase changes the mass). -/
theorem c1_collapse_rescales (locs : List ℕ) (val : Bool) (sim : QuantumSim)
    (hnd : (keys sim.state).Nodup)
    (hpos : 0 < sumNormSq (sim.state.filter
      fun kv => maskParity kv.1 (locsMask locs) == val)) :
    (joint_collapse locs val sim).state
        = (sim.state.filter fun kv => maskParity kv.1 (locsMask locs) == val).map
            (fun kv => (kv.1, kv.2 * Complex.ofReal (1 / Real.sqrt (sumNormSq
              (sim.state.filter fun kv => maskParity kv.1 (locsMask locs) == val)))))
      ∧ totalMass (joint_collapse locs val sim).state = 1 :=
  ⟨congrArg QuantumSim.state (joint_collapse_eq locs val sim hnd),
    totalMass_joint_collapse locs val sim hnd hpos⟩

/-- Witness for C1 (amended) at the one-qubit ground simulator collapsed
on outcome zero. -/
theorem c1_witness :
    (0:ℝ) < sumNormSq (((⟨[(0, 1)], [(0, 0)]⟩ : QuantumSim)).state.filter
        fun kv => maskParity kv.1 (locsMask [0]) == false) ∧
      totalMass (joint_collapse [0] false ⟨[(0, 1)], [(0, 0)]⟩).state = 1 := by
  have hmp : maskParity 0 (locsMask [0]) = false := by
    rw [locsMask_single, maskParity_two_pow]
    simp
  have hpos : (0:ℝ) < sumNormSq (((⟨[(0, 1)], [(0, 0)]⟩ : QuantumSim)).state.filter
      fun kv => maskParity kv.1 (locsMask [0]) == false) := by
    rw [show ((⟨[(0, 1)], [(0, 0)]⟩ : QuantumSim)).state = [((0:ℕ), (1:ℂ))] from rfl]
    simp [hmp, sumNormSq_cons, sumNormSq_nil]
  exact ⟨hpos,
    (c1_collapse_rescales [0] false ⟨[(0, 1)], [(0, 0)]⟩ (by simp [keys]) hpos).2⟩

end QSim

namespace QSim

theorem filter_beq_true (st : List (ℕ × ℂ)) (mask : ℕ) :
    (st.filter fun kv => maskParity kv.1 mask == true)
      = st.filter fun kv => maskParity kv.1 mask := by
  simp

theorem joint_probability_eq_check (ids : List ℕ) (sim : QuantumSim) (r : ℝ)
    (hjp : joint_probability ids sim = some r) :
    ∃ locs, check_joint_probability sim locs = r := by
  rw [joint_probability] at hjp
  by_cases hdup :
      (firstAdjacentDup (List.insertionSort (· ≤ ·) ids)).isSome
  · rw [if_pos hdup] at hjp
    exact absurd hjp (by simp)
  · rw [if_neg hdup] at hjp
    cases hres : resolveAll sim ids with
    | none => rw [hres] at hjp; exact absurd hjp (by simp)
    | some locs =>
      rw [hres] at hjp
      exact ⟨locs, by injection hjp⟩

/-- C5 (amended): `joint_probability` always returns a nonnegative value
bounded by the total stored mass (so it lies in the unit interval exactly
when the state is normalized — a non-unit `mcphase` can push it above 1);
and immediately after `measure` returns an outcome, the single-qubit
probability of the measured qubit is exactly 1 for `true` and exactly 0
for `false`. -/
theorem c5_joint_probability_bounds (sim0 : QuantumSim) :
    (∀ ids r, joint_probability ids sim0 = some r →
        0 ≤ r ∧ r ≤ totalMass sim0.state) ∧
    (∀ id sample outcome sim2, (keys sim0.state).Nodup → 0 ≤ sample →
        measure sample id sim0 = some (outcome, sim2) →
        joint_probability [id] sim2 = some (if outcome then 1 else 0)) := by
  constructor
  · intro ids r hjp
    obtain ⟨locs, hcheck⟩ := joint_probability_eq_check ids sim0 r hjp
    exact ⟨hcheck ▸ check_joint_probability_nonneg sim0 locs,
      hcheck ▸ check_joint_probability_le_totalMass sim0 locs⟩
  · intro id sample outcome sim2 hnd hsample hm
    rw [measure] at hm
    cases hl : lookup sim0.id_map id with
    | none => rw [hl] at hm; exact absurd hm (by simp)
    | some loc =>
      rw [hl] at hm
      simp only [measure_impl] at hm
      injection hm with hpair
      obtain ⟨ho, hs2⟩ := Prod.ext_iff.1 hpair
      dsimp only at ho hs2
      have hl2 : lookup sim2.id_map id = some loc := by
        rw [← hs2, collapse, joint_collapse_id_map]
        exact hl
      rw [joint_probability_single sim2 id loc hl2]
      have hpos : outcome = true → 0 < sumNormSq (sim0.state.filter
          fun kv => maskParity kv.1 (locsMask [loc]) == outcome) := by
        intro htrue
        have hlt : sample < check_joint_probability sim0 [loc] :=
          of_decide_eq_true (by rw [ho]; exact htrue)
        have hplt : 0 < check_joint_probability sim0 [loc] :=
          lt_of_le_of_lt hsample hlt
        rw [check_joint_probability_eq] at hplt
        rw [htrue, filter_beq_true]
        exact hplt
      have hcjp := cjp_joint_collapse [loc] outcome sim0 hnd hpos
      rw [← hs2, collapse, ho, hcjp]

/-- Witness for C5 at the one-qubit ground simulator: bounds at the
probability 0, and the post-measure probability for outcome false. -/
theorem c5_witness :
    ((0:ℝ) ≤ 0 ∧ (0:ℝ) ≤ totalMass ((⟨[(0, 1)], [(0, 0)]⟩ : QuantumSim)).state) ∧
      joint_probability [0] (collapse 0 false ⟨[(0, 1)], [(0, 0)]⟩) = some 0 := by
  have hmeas : measure (1/2) 0 (⟨[(0, 1)], [(0, 0)]⟩ : QuantumSim)
      = some (false, collapse 0 false ⟨[(0, 1)], [(0, 0)]⟩) := by
    rw [measure]
    rw [show lookup ([((0:ℕ), (0:ℕ))]) 0 = some 0 by simp [lookup]]
    simp only [measure_impl]
    obtain ⟨loc, hl, hc⟩ := joint_probability_single_inv _ 0 0 jp_ground
    have hl0 : loc = 0 := by simp [lookup] at hl; omega
    rw [hl0] at hc
    rw [hc]
    norm_num
  constructor
  · exact (c5_joint_probability_bounds ⟨[(0, 1)], [(0, 0)]⟩).1 [0] 0 jp_ground
  · have h2 := (c5_joint_probability_bounds ⟨[(0, 1)], [(0, 0)]⟩).2 0 (1/2) false
      (collapse 0 false ⟨[(0, 1)], [(0, 0)]⟩) (by simp [keys]) (by norm_num) hmeas
    simpa using h2

/-- C5 (counterexample): after the reachable sequence allocate; x;
mcphase(2), the duplicate-free live id 0 gives joint_probability 4,
outside the unit interval. -/
theorem c5_counterexample :
    Reachable ⟨[(1, 2)], [(0, 0)]⟩ ∧
      joint_probability [0] ⟨[(1, 2)], [(0, 0)]⟩ = some 4 ∧ ¬ ((4:ℝ) ≤ 1) :=
  ⟨reach_scaled, jp_scaled, by norm_num⟩

end QSim

namespace QSim

theorem newKey_aux (xs : List ℕ) (n : ℕ) (hsorted : List.Sorted (· < ·) xs)
    (hge : ∀ z ∈ xs, n ≤ z) :
    (((((List.enumFrom n xs).takeWhile fun p => p.1 == p.2).getLast?).map
        fun p => p.2 + 1).getD n) ∉ xs ∧
    (∀ m, n ≤ m →
      m < (((((List.enumFrom n xs).takeWhile fun p => p.1 == p.2).getLast?).map
        fun p => p.2 + 1).getD n) → m ∈ xs) ∧
    n ≤ (((((List.enumFrom n xs).takeWhile fun p => p.1 == p.2).getLast?).map
        fun p => p.2 + 1).getD n) := by
  induction xs generalizing n with
  | nil => simp
  | cons hd rest ih =>
    rw [show List.enumFrom n (hd :: rest) = (n, hd) :: List.enumFrom (n + 1) rest from rfl]
    rw [List.takeWhile_cons]
    by_cases hx : hd = n
    · rw [if_pos (by simp [hx])]
      have hcons := List.sorted_cons.1 hsorted
      have hge2 : ∀ z ∈ rest, n + 1 ≤ z := by
        intro z hz
        have h1 := hcons.1 z hz
        omega
      have ihr := ih (n + 1) hcons.2 hge2
      cases htw : (List.enumFrom (n + 1) rest).takeWhile (fun p => p.1 == p.2) with
      | nil =>
        rw [htw] at ihr
        simp only [htw, List.getLast?_singleton, List.getLast?_nil, Option.map_some', Option.map_some,
          Option.map_none', Option.map_none, Option.getD_some, Option.getD_none] at ihr ⊢
        subst hx
        obtain ⟨ih1, ih2, ih3⟩ := ihr
        refine ⟨?_, ?_, by omega⟩
        · simp only [List.mem_cons, not_or]
          exact ⟨by omega, ih1⟩
        · intro m hm1 hm2
          have hmhd : m = hd := by omega
          simp [hmhd]
      | cons a as =>
        rw [htw] at ihr
        cases hgl : (a :: as).getLast? with
        | none => exact absurd hgl (by simp)
        | some p =>
          simp only [hgl, Option.map_some', Option.map_some, Option.getD_some] at ihr
          simp only [htw, List.getLast?_cons_cons, hgl, Option.map_some', Option.map_some,
            Option.getD_some] at ihr ⊢
          subst hx
          obtain ⟨ih1, ih2, ih3⟩ := ihr
          refine ⟨?_, ?_, by omega⟩
          · simp only [List.mem_cons, not_or]
            exact ⟨by omega, ih1⟩
          · intro m hm1 hm2
            rcases Nat.eq_or_lt_of_le hm1 with heq | hlt
            · simp [heq.symm]
            · exact List.mem_cons_of_mem _ (ih2 m hlt hm2)
    · rw [if_neg (by simp [Ne.symm hx])]
      simp only [List.getLast?_nil, Option.map_none', Option.map_none, Option.getD_none]
      have hgt : n < hd := lt_of_le_of_ne (hge hd (List.mem_cons_self _ _)) (Ne.symm hx)
      have hcons := List.sorted_cons.1 hsorted
      refine ⟨?_, by omega, le_rfl⟩
      simp only [List.mem_cons, not_or]
      refine ⟨by omega, fun hmem => ?_⟩
      have := hcons.1 n hmem
      omega

end QSim

namespace QSim

/-- C4: `allocate` returns the smallest identifier not currently live,
assigns it the next internal location (the pre-call qubit count), and on an
empty identity map seeds the store with the single ground-state entry.
It is a total function (no failure mode). -/
theorem c4_allocate (sim : QuantumSim) (hndid : (keys sim.id_map).Nodup)
    (hndst : (keys sim.state).Nodup) (hbound : KeysBound sim) :
    ((allocate sim).1 ∉ keys sim.id_map) ∧
    (∀ m < (allocate sim).1, m ∈ keys sim.id_map) ∧
    lookup (allocate sim).2.id_map (allocate sim).1 = some sim.id_map.length ∧
    (allocate sim).2.id_map.length = sim.id_map.length + 1 ∧
    (sim.id_map = [] → (allocate sim).2.state = [(0, 1)]) := by
  have hperm : (List.insertionSort (· ≤ ·) (keys sim.id_map)).Perm (keys sim.id_map) :=
    List.perm_insertionSort _ _
  have hsort : List.Sorted (· < ·) (List.insertionSort (· ≤ ·) (keys sim.id_map)) :=
    (List.sorted_insertionSort _ _).lt_of_le (hperm.symm.nodup hndid)
  have haux := newKey_aux (List.insertionSort (· ≤ ·) (keys sim.id_map)) 0 hsort
    (by simp)
  rw [← List.enum_eq_enumFrom] at haux
  have hfst : (allocate sim).1
      = ((((List.insertionSort (· ≤ ·) (keys sim.id_map)).enum.takeWhile
          fun p => p.1 == p.2).getLast?).map fun p => p.2 + 1).getD 0 := rfl
  have hnotmem : (allocate sim).1 ∉ keys sim.id_map := by
    rw [hfst]
    intro hmem
    exact haux.1 (hperm.mem_iff.2 hmem)
  have hlen : (List.insertionSort (· ≤ ·) (keys sim.id_map)).length
      = sim.id_map.length := by
    rw [hperm.length_eq]
    simp [keys]
  have hsnd : (allocate sim).2.id_map
      = insertEntry sim.id_map (allocate sim).1
          (List.insertionSort (· ≤ ·) (keys sim.id_map)).length := rfl
  refine ⟨hnotmem, ?_, ?_, ?_, ?_⟩
  · intro m hm
    rw [hfst] at hm
    exact hperm.mem_iff.1 (haux.2.1 m (Nat.zero_le m) hm)
  · rw [hsnd, lookup_insertEntry_self, hlen]
  · rw [hsnd, length_insertEntry_of_not_mem _ _ _ hnotmem]
  · intro hempty
    have hstate : (allocate sim).2.state = insertEntry sim.state 0 1 := by
      show (if sim.id_map.isEmpty then insertEntry sim.state 0 1 else sim.state) = _
      rw [hempty]
      simp
    rw [hstate]
    have hkeys0 : ∀ kv ∈ sim.state, kv.1 = 0 := by
      intro kv hkv
      have := hbound kv hkv
      rw [hempty] at this
      simpa using this
    cases hst : sim.state with
    | nil => simp [insertEntry]
    | cons e rest =>
      cases hre : rest with
      | nil =>
        have he0 : e.1 = 0 := hkeys0 e (by rw [hst]; exact List.mem_cons_self _ _)
        simp [insertEntry, he0]
      | cons f rest2 =>
        have he0 : e.1 = 0 := hkeys0 e (by rw [hst]; exact List.mem_cons_self _ _)
        have hf0 : f.1 = 0 := hkeys0 f (by
          rw [hst, hre]
          exact List.mem_cons_of_mem _ (List.mem_cons_self _ _))
        rw [hst, hre] at hndst
        simp [keys, he0, hf0] at hndst

/-- Witness for C4 at the spec example: live identifiers 0, 1, 2, 4; the
next allocation returns the gap identifier 3 at location 4. -/
theorem c4_witness :
    (allocate ⟨[(0, 1)], [(0, 0), (1, 1), (2, 2), (4, 3)]⟩).1 = 3 ∧
      ((allocate ⟨[(0, 1)], [(0, 0), (1, 1), (2, 2), (4, 3)]⟩).1
        ∉ keys ([((0:ℕ), (0:ℕ)), (1, 1), (2, 2), (4, 3)])) ∧
      lookup (allocate ⟨[(0, 1)], [(0, 0), (1, 1), (2, 2), (4, 3)]⟩).2.id_map
        (allocate ⟨[(0, 1)], [(0, 0), (1, 1), (2, 2), (4, 3)]⟩).1 = some 4 := by
  have hmain := c4_allocate ⟨[(0, 1)], [(0, 0), (1, 1), (2, 2), (4, 3)]⟩
    (by simp [keys]) (by simp [keys])
    (by
      intro kv hkv
      simp only [List.mem_singleton] at hkv
      subst hkv
      norm_num)
  exact ⟨rfl, hmain.1, hmain.2.2.1⟩

end QSim

namespace QSim

theorem swapKeyBits_involutive (q1 q2 k : ℕ) :
    swapKeyBits q1 q2 (swapKeyBits q1 q2 k) = k := by
  by_cases heq : k.testBit q1 = k.testBit q2
  · have h1 : swapKeyBits q1 q2 k = k := by rw [swapKeyBits, if_pos heq]
    rw [h1, h1]
  · have hq : q1 ≠ q2 := fun hc => heq (by rw [hc])
    have h1 : swapKeyBits q1 q2 k
        = setBitN (setBitN k q1 (! k.testBit q1)) q2 (! k.testBit q2) := by
      rw [swapKeyBits, if_neg heq]
    rw [h1]
    have hb1 : (setBitN (setBitN k q1 (! k.testBit q1)) q2
        (! k.testBit q2)).testBit q1 = ! k.testBit q1 := by
      rw [testBit_setBitN_ne _ _ _ _ hq, testBit_setBitN_self]
    have hb2 : (setBitN (setBitN k q1 (! k.testBit q1)) q2
        (! k.testBit q2)).testBit q2 = ! k.testBit q2 := testBit_setBitN_self _ _ _
    have hneq2 : ¬ ((setBitN (setBitN k q1 (! k.testBit q1)) q2
          (! k.testBit q2)).testBit q1
        = (setBitN (setBitN k q1 (! k.testBit q1)) q2 (! k.testBit q2)).testBit q2) := by
      rw [hb1, hb2]
      intro hc
      exact heq (by
        cases hk1 : Nat.testBit k q1 <;> cases hk2 : Nat.testBit k q2 <;> simp_all)
    rw [swapKeyBits, if_neg hneq2, hb1, hb2]
    simp only [Bool.not_not]
    apply Nat.eq_of_testBit_eq
    intro j
    by_cases hj2 : j = q2
    · subst hj2
      rw [testBit_setBitN_self]
    · by_cases hj1 : j = q1
      · subst hj1
        rw [testBit_setBitN_ne _ _ _ _ hj2, testBit_setBitN_self]
      · rw [testBit_setBitN_ne _ _ _ _ hj2, testBit_setBitN_ne _ _ _ _ hj1,
          testBit_setBitN_ne _ _ _ _ hj2, testBit_setBitN_ne _ _ _ _ hj1]

theorem swapKeyBits_injective (q1 q2 : ℕ) : Function.Injective (swapKeyBits q1 q2) :=
  Function.LeftInverse.injective (swapKeyBits_involutive q1 q2)

theorem foldl_insert_map (g : ℕ × ℂ → ℕ × ℂ) (st acc : List (ℕ × ℂ))
    (hnd : (keys (st.map g)).Nodup)
    (hdisj : ∀ kv ∈ st, (g kv).1 ∉ keys acc) :
    st.foldl (fun accum kv => insertEntry accum (g kv).1 (g kv).2) acc
      = acc ++ st.map g := by
  induction st generalizing acc with
  | nil => simp
  | cons e rest ih =>
    rw [List.foldl_cons]
    have hge : (g e).1 ∉ keys acc := hdisj e (List.mem_cons_self _ _)
    have hins : insertEntry acc (g e).1 (g e).2 = acc ++ [g e] := by
      rw [insertEntry_of_lookup_none _ _ _ ((lookup_eq_none_iff _ _).2 hge)]
    rw [hins]
    have hnd2 : ((g e).1 ∉ keys (rest.map g)) ∧ (keys (rest.map g)).Nodup := by
      simpa [keys, List.nodup_cons] using hnd
    rw [ih (acc ++ [g e]) hnd2.2
      (by
        intro kv hkv
        simp only [keys, List.map_append, List.mem_append, not_or]
        refine ⟨fun hc => hdisj kv (List.mem_cons_of_mem _ hkv) hc, ?_⟩
        simp only [List.map_cons, List.map_nil, List.mem_singleton]
        intro hc
        exact hnd2.1 (hc ▸ List.mem_map_of_mem Prod.fst (List.mem_map_of_mem g hkv)))]
    simp

/-- C8: `swap_qubit_state` rewrites each key by exchanging the bits at the
two locations (identity when equal, both flipped otherwise), leaves the
amplitudes untouched, and preserves the number of stored entries. -/
theorem c8_swap_qubit_state (st : List (ℕ × ℂ)) (q1 q2 : ℕ)
    (hnd : (keys st).Nodup) :
    swap_qubit_state st q1 q2 = st.map (fun kv => (swapKeyBits q1 q2 kv.1, kv.2)) ∧
      (swap_qubit_state st q1 q2).length = st.length ∧
      (∀ k : ℕ, k.testBit q1 = k.testBit q2 → swapKeyBits q1 q2 k = k) ∧
      (∀ k : ℕ, k.testBit q1 ≠ k.testBit q2 →
        swapKeyBits q1 q2 k
          = setBitN (setBitN k q1 (! k.testBit q1)) q2 (! k.testBit q2)) := by
  have hmap : swap_qubit_state st q1 q2
      = st.map (fun kv => (swapKeyBits q1 q2 kv.1, kv.2)) := by
    rw [swap_qubit_state]
    by_cases hq : q1 = q2
    · rw [if_pos hq]
      subst hq
      have : (fun kv : ℕ × ℂ => (swapKeyBits q1 q1 kv.1, kv.2)) = id := by
        funext kv
        simp [swapKeyBits]
      rw [this, List.map_id]
    · rw [if_neg hq]
      have hbody : (fun (accum : List (ℕ × ℂ)) (kv : ℕ × ℂ) =>
            if kv.1.testBit q1 = kv.1.testBit q2 then insertEntry accum kv.1 kv.2
            else
              insertEntry accum
                (setBitN (setBitN kv.1 q1 (! kv.1.testBit q1)) q2 (! kv.1.testBit q2))
                kv.2)
          = fun accum kv =>
              insertEntry accum ((fun kv : ℕ × ℂ => (swapKeyBits q1 q2 kv.1, kv.2)) kv).1
                ((fun kv : ℕ × ℂ => (swapKeyBits q1 q2 kv.1, kv.2)) kv).2 := by
        funext accum kv
        by_cases hb : kv.1.testBit q1 = kv.1.testBit q2 <;>
          simp [hb, swapKeyBits]
      rw [hbody]
      rw [foldl_insert_map (fun kv : ℕ × ℂ => (swapKeyBits q1 q2 kv.1, kv.2)) st []
        (by
          have : keys (st.map fun kv : ℕ × ℂ => (swapKeyBits q1 q2 kv.1, kv.2))
              = (keys st).map (swapKeyBits q1 q2) := by
            simp [keys, List.map_map]
          rw [this]
          exact hnd.map (swapKeyBits_injective q1 q2))
        (by simp [keys])]
      simp
  refine ⟨hmap, by rw [hmap]; simp, ?_, ?_⟩
  · intro k hk
    rw [swapKeyBits, if_pos hk]
  · intro k hk
    rw [swapKeyBits, if_neg hk]

/-- Witness for C8 on a one-entry store: key 1 has bits 1 and 0 at
locations 0 and 1, so the swap flips both, producing key 2. -/
theorem c8_witness :
    swap_qubit_state [(1, 1)] 0 1
        = [((1:ℕ), (1:ℂ))].map (fun kv => (swapKeyBits 0 1 kv.1, kv.2)) ∧
      (swap_qubit_state [(1, 1)] 0 1).length = ([((1:ℕ), (1:ℂ))]).length := by
  have hmain := c8_swap_qubit_state [(1, 1)] 0 1 (by simp [keys])
  exact ⟨hmain.1, hmain.2.1⟩

end QSim

namespace QSim

theorem normSq_frac1Sqrt2 : Complex.normSq (Complex.ofReal frac1Sqrt2) = 1 / 2 := by
  rw [Complex.normSq_ofReal, frac1Sqrt2, ← mul_inv]
  rw [Real.mul_self_sqrt (by norm_num : (0:ℝ) ≤ 2)]
  norm_num

/-- C7 (amended): in the cross-entry engines the no-partner branch inserts
both computed outputs unconditionally — no near-zero pruning is applied
there (for `mch` and for the non-degenerate `mcrotation` alike); pruning
is applied only in the superposition merge branch, which skips an output
whose merged amplitude is nearly zero. -/
theorem c7_branch_pruning (old accum : List (ℕ × ℂ)) (target : ℕ) (clocs : List ℕ)
    (index : ℕ) (value m00 m01 m10 : ℂ) :
    ((clocs.all fun c => index.testBit c) = true →
      lookup old (index ^^^ (1 <<< target)) = none →
      mchEntry old target clocs accum (index, value)
        = insertEntry
            (insertEntry accum (setBitN index target false)
              (value * Complex.ofReal frac1Sqrt2))
            (setBitN index target true)
            (value * Complex.ofReal frac1Sqrt2
              * if index.testBit target then -1 else 1)) ∧
    ((clocs.all fun c => index.testBit c) = true →
      lookup old (index ^^^ (1 <<< target)) = none →
      mcrotationEntry old m00 m01 m10 target clocs accum (index, value)
        = if index.testBit target then
            insertEntry (insertEntry accum (index ^^^ (1 <<< target)) (value * m01))
              index (value * m00)
          else
            insertEntry (insertEntry accum index (value * m00))
              (index ^^^ (1 <<< target)) (value * m10)) ∧
    (∀ fv : ℂ, (clocs.all fun c => index.testBit c) = true →
      lookup old (index ^^^ (1 <<< target)) = some fv →
      index.testBit target = false →
      isNearlyZero (value + fv) → isNearlyZero (value - fv) →
      mchEntry old target clocs accum (index, value) = accum) := by
  refine ⟨?_, ?_, ?_⟩
  · intro hctl hnp
    rw [mchEntry]
    simp only [hctl, if_true, hnp]
  · intro hctl hnp
    rw [mcrotationEntry]
    simp only [hctl, if_true, hnp]
  · intro fv hctl hsome hbit hz1 hz2
    rw [mchEntry]
    simp only [hctl, if_true, hsome, hbit]
    simp only [Option.getD_some]
    rw [if_neg (by simp : ¬ (some fv = none))]
    rw [if_pos (by simp : ((!false) = true))]
    simp only [if_neg (not_not_intro hz2), if_neg (not_not_intro hz1)]

/-- Witness for C7 (amended) at a trivial no-partner application. -/
theorem c7_witness :
    mchEntry [] 0 [] [] (0, 1)
      = insertEntry
          (insertEntry [] (setBitN 0 0 false) (1 * Complex.ofReal frac1Sqrt2))
          (setBitN 0 0 true)
          (1 * Complex.ofReal frac1Sqrt2 * if Nat.testBit 0 0 then -1 else 1) :=
  (c7_branch_pruning [] [] 0 [] 0 1 0 0 0).1 (by simp) (by simp [lookup])

/-- C7 (counterexample): on a store obeying the per-entry pruning
invariant, `mch` processes the partnerless entry at key 1 (squared
magnitude 1.44e-10) and stores its zero-bit output at key 0 even though
that output's squared magnitude, 7.2e-11, lies below the near-zero
epsilon — the no-partner branch does not prune. -/
theorem c7_counterexample :
    (mch [] 0 ⟨[(1, Complex.ofReal (3 / 250000)), (2, 1)], [(0, 0), (1, 1)]⟩).map
        (fun sim2 => lookup sim2.state 0)
      = some (some (Complex.ofReal (3 / 250000) * Complex.ofReal frac1Sqrt2)) ∧
    isNearlyZero (Complex.ofReal (3 / 250000) * Complex.ofReal frac1Sqrt2) ∧
    ¬ isNearlyZero (Complex.ofReal (3 / 250000)) := by
  refine ⟨?_, ?_, ?_⟩
  · rw [mch, resolve_nil_ok _ 0 0 (by simp [lookup])]
    dsimp only
    rw [List.foldl_cons, List.foldl_cons, List.foldl_nil]
    rw [(c7_branch_pruning [(1, Complex.ofReal (3 / 250000)), (2, 1)] [] 0 []
        1 (Complex.ofReal (3 / 250000)) 0 0 0).1 (by simp) (by simp [lookup])]
    rw [(c7_branch_pruning [(1, Complex.ofReal (3 / 250000)), (2, 1)] _ 0 []
        2 1 0 0 0).1 (by simp) (by simp [lookup])]
    simp only [setBitN, insertEntry, lookup]
    norm_num [show (2:ℕ) ^^^ 1 = 3 from rfl]
    simp [lookup]
  · rw [isNearlyZero, Complex.normSq_mul, normSq_frac1Sqrt2, Complex.normSq_ofReal,
      epsilon]
    norm_num
  · rw [isNearlyZero, Complex.normSq_ofReal, epsilon]
    norm_num

end QSim

namespace QSim

theorem firstAdjacentDup_eq_none_iff (l : List ℕ) (hsort : List.Sorted (· ≤ ·) l) :
    firstAdjacentDup l = none ↔ l.Nodup := by
  induction l with
  | nil => simp [firstAdjacentDup]
  | cons a rest ih =>
    cases rest with
    | nil => simp [firstAdjacentDup]
    | cons b rest2 =>
      rw [firstAdjacentDup]
      by_cases hab : a = b
      · simp only [if_pos hab]
        constructor
        · intro hc; exact absurd hc (by simp)
        · intro hnd
          exact absurd (hab ▸ (List.nodup_cons.1 hnd).1) (by simp [hab])
      · rw [if_neg hab]
        have hsort2 : List.Sorted (· ≤ ·) (b :: rest2) := (List.sorted_cons.1 hsort).2
        rw [ih hsort2]
        constructor
        · intro hnd
          rw [List.nodup_cons]
          refine ⟨?_, hnd⟩
          intro hmem
          rcases List.mem_cons.1 hmem with heq | hmem2
          · exact hab heq
          · have hab2 : a ≤ b := (List.sorted_cons.1 hsort).1 b (List.mem_cons_self _ _)
            have hbx : b ≤ a := (List.sorted_cons.1 hsort2).1 a hmem2
            exact hab (le_antisymm hab2 hbx)
        · intro hnd
          exact (List.nodup_cons.1 hnd).2

theorem dup_isSome_iff (l : List ℕ) :
    (firstAdjacentDup (List.insertionSort (· ≤ ·) l)).isSome ↔ ¬ l.Nodup := by
  have hsort := List.sorted_insertionSort (· ≤ ·) l
  have hperm := List.perm_insertionSort (· ≤ ·) l
  have hiff := firstAdjacentDup_eq_none_iff _ hsort
  constructor
  · intro hs hnd
    rw [hiff.2 (hperm.symm.nodup hnd)] at hs
    simp at hs
  · intro hnd
    by_contra hns
    have hnone : firstAdjacentDup (List.insertionSort (· ≤ ·) l) = none := by
      cases hfd : firstAdjacentDup (List.insertionSort (· ≤ ·) l)
      · rfl
      · exact absurd (by simp [hfd]) hns
    exact hnd (hperm.nodup (hiff.1 hnone))

theorem resolveList_none_iff (m : List (ℕ × ℕ)) (l : List ℕ) :
    resolveList m l = none ↔ ∃ a ∈ l, lookup m a = none := by
  induction l with
  | nil => simp [resolveList]
  | cons a rest ih =>
    rw [resolveList]
    cases hfa : lookup m a with
    | none => simp [hfa]
    | some b =>
      cases hrest : resolveList m rest with
      | none =>
        constructor
        · intro _
          rcases ih.1 hrest with ⟨c, hc1, hc2⟩
          exact ⟨c, List.mem_cons_of_mem _ hc1, hc2⟩
        · intro _
          rfl
      | some bs =>
        constructor
        · intro hc; exact absurd hc (by simp)
        · rintro ⟨c, hc1, hc2⟩
          rcases List.mem_cons.1 hc1 with rfl | hc3
          · rw [hfa] at hc2; exact absurd hc2 (by simp)
          · rw [ih.2 ⟨c, hc3, hc2⟩] at hrest
            exact absurd hrest (by simp)

/-- Failure characterization of `resolve_and_check_qubits`: it fails
exactly on an unknown target, an unknown control, or a duplicate among
the resolved locations (controls plus target). -/
theorem resolve_none_iff (sim : QuantumSim) (target : ℕ) (ctls : List ℕ) :
    resolve_and_check_qubits sim target ctls = none ↔
      (lookup sim.id_map target = none ∨ (∃ c ∈ ctls, lookup sim.id_map c = none) ∨
        (∃ tloc clocs, lookup sim.id_map target = some tloc ∧
          resolveList sim.id_map ctls = some clocs ∧ ¬ (clocs ++ [tloc]).Nodup)) := by
  rw [resolve_and_check_qubits]
  cases hl : lookup sim.id_map target with
  | none => simp
  | some tloc =>
    simp only [reduceCtorEq, false_or]
    cases hres : resolveList sim.id_map ctls with
    | none =>
      constructor
      · intro _
        exact Or.inl ((resolveList_none_iff sim.id_map ctls).1 hres)
      · intro _
        rfl
    | some clocs =>
      simp only []
      by_cases hdup : (firstAdjacentDup
          (List.insertionSort (· ≤ ·) (clocs ++ [tloc]))).isSome
      · rw [if_pos hdup]
        simp only [true_iff]
        refine Or.inr ⟨tloc, clocs, rfl, rfl, ?_⟩
        exact (dup_isSome_iff _).1 hdup
      · rw [if_neg hdup]
        simp only [reduceCtorEq, false_iff]
        push_neg
        constructor
        · intro c hc hcnone
          exact absurd ((resolveList_none_iff sim.id_map ctls).2 ⟨c, hc, hcnone⟩)
            (by simp [hres])
        · intro tloc2 clocs2 htl hcl
          injection htl with htl
          injection hcl with hcl
          subst htl
          subst hcl
          by_contra hnd
          exact hdup ((dup_isSome_iff _).2 hnd)

end QSim

namespace QSim

theorem rot_zero_m00 : ¬ isNearlyZero (rotationM00 0) := by
  rw [isNearlyZero, normSq_rotationM00, epsilon]
  norm_num

theorem rot_zero_m01 : isNearlyZero (rotationM01 0 false) := by
  rw [isNearlyZero, normSq_rotationM01, epsilon]
  norm_num

theorem controlled_gate_none_iff (sim : QuantumSim) (ctls : List ℕ) (target : ℕ)
    (op : ℕ × ℂ → ℕ → ℕ × ℂ) :
    controlled_gate ctls target op sim = none
      ↔ resolve_and_check_qubits sim target ctls = none := by
  rw [controlled_gate]
  cases hres : resolve_and_check_qubits sim target ctls with
  | none => simp
  | some pr => simp

theorem mch_none_iff (sim : QuantumSim) (ctls : List ℕ) (target : ℕ) :
    mch ctls target sim = none
      ↔ resolve_and_check_qubits sim target ctls = none := by
  rw [mch]
  cases hres : resolve_and_check_qubits sim target ctls with
  | none => simp
  | some pr => simp

/-- C3 (amended): the usage-error discipline. `mcx` (representative of
every gate built on `controlled_gate`) and `mch` fail exactly when the
target or a control id is unknown or the resolved operand locations
contain a duplicate; `joint_probability` and `joint_measure` fail exactly
when the id list has a duplicate or an unknown id; `measure` fails exactly
on an unknown id. The exception the code carves out: `mcrotation` whose
`m01` is nearly zero (with `m00` not nearly zero) validates nothing and
returns the state unchanged even when the ids are invalid. -/
theorem c3_usage_errors :
    (∀ (sim : QuantumSim) (ctls : List ℕ) (target : ℕ),
      mcx ctls target sim = none ↔
        (lookup sim.id_map target = none ∨ (∃ c ∈ ctls, lookup sim.id_map c = none) ∨
          (∃ tloc clocs, lookup sim.id_map target = some tloc ∧
            resolveList sim.id_map ctls = some clocs ∧ ¬ (clocs ++ [tloc]).Nodup))) ∧
    (∀ (sim : QuantumSim) (ctls : List ℕ) (target : ℕ),
      mch ctls target sim = none ↔
        (lookup sim.id_map target = none ∨ (∃ c ∈ ctls, lookup sim.id_map c = none) ∨
          (∃ tloc clocs, lookup sim.id_map target = some tloc ∧
            resolveList sim.id_map ctls = some clocs ∧ ¬ (clocs ++ [tloc]).Nodup))) ∧
    (∀ (sim : QuantumSim) (ids : List ℕ),
      joint_probability ids sim = none ↔
        (¬ ids.Nodup ∨ ∃ id ∈ ids, lookup sim.id_map id = none)) ∧
    (∀ (sim : QuantumSim) (sample : ℝ) (ids : List ℕ),
      joint_measure sample ids sim = none ↔
        (¬ ids.Nodup ∨ ∃ id ∈ ids, lookup sim.id_map id = none)) ∧
    (∀ (sim : QuantumSim) (sample : ℝ) (id : ℕ),
      measure sample id sim = none ↔ lookup sim.id_map id = none) ∧
    (∀ (sim : QuantumSim) (ctls : List ℕ) (theta : ℝ) (target : ℕ) (sf : Bool),
      ¬ isNearlyZero (rotationM00 theta) → isNearlyZero (rotationM01 theta sf) →
      mcrotation ctls theta target sf sim = some sim) := by
  refine ⟨?_, ?_, ?_, ?_, ?_, ?_⟩
  · intro sim ctls target
    rw [mcx, controlled_gate_none_iff, resolve_none_iff]
  · intro sim ctls target
    rw [mch_none_iff, resolve_none_iff]
  · intro sim ids
    rw [joint_probability]
    by_cases hdup : (firstAdjacentDup (List.insertionSort (· ≤ ·) ids)).isSome
    · rw [if_pos hdup]
      simp only [true_iff]
      exact Or.inl ((dup_isSome_iff ids).1 hdup)
    · rw [if_neg hdup]
      have hnodup : ids.Nodup := by
        by_contra hnd
        exact hdup ((dup_isSome_iff ids).2 hnd)
      cases hres : resolveAll sim ids with
      | none =>
        simp only [true_iff]
        exact Or.inr ((resolveList_none_iff sim.id_map ids).1 hres)
      | some locs =>
        simp only [reduceCtorEq, false_iff]
        push_neg
        refine ⟨hnodup, ?_⟩
        intro id hid
        cases hl : lookup sim.id_map id with
        | none =>
          rw [resolveAll, (resolveList_none_iff sim.id_map ids).2 ⟨id, hid, hl⟩] at hres
          exact absurd hres (by simp)
        | some loc => simp
  · intro sim sample ids
    rw [joint_measure]
    by_cases hdup : (firstAdjacentDup (List.insertionSort (· ≤ ·) ids)).isSome
    · rw [if_pos hdup]
      simp only [true_iff]
      exact Or.inl ((dup_isSome_iff ids).1 hdup)
    · rw [if_neg hdup]
      have hnodup : ids.Nodup := by
        by_contra hnd
        exact hdup ((dup_isSome_iff ids).2 hnd)
      cases hres : resolveAll sim ids with
      | none =>
        simp only [true_iff]
        exact Or.inr ((resolveList_none_iff sim.id_map ids).1 hres)
      | some locs =>
        simp only [reduceCtorEq, false_iff]
        push_neg
        refine ⟨hnodup, ?_⟩
        intro id hid
        cases hl : lookup sim.id_map id with
        | none =>
          rw [resolveAll, (resolveList_none_iff sim.id_map ids).2 ⟨id, hid, hl⟩] at hres
          exact absurd hres (by simp)
        | some loc => simp
  · intro sim sample id
    rw [measure]
    cases hl : lookup sim.id_map id with
    | none => simp
    | some loc => simp
  · intro sim ctls theta target sf h0 h1
    rw [mcrotation]
    simp only [if_neg h0, if_pos h1]

/-- Witness for C3 at the identity-shortcut conjunct: `mcrotation` at
angle 0 on the empty simulator succeeds without validating the target. -/
theorem c3_witness :
    mcrotation [] 0 0 false QuantumSim.new = some QuantumSim.new :=
  c3_usage_errors.2.2.2.2.2 QuantumSim.new [] 0 0 false rot_zero_m00 rot_zero_m01

/-- C3 (counterexample): `rx` with angle 0 at the unallocated id 0 of a
fresh simulator does not fail — the identity shortcut skips the liveness
check — contradicting the claim that every gate fails on an unknown id. -/
theorem c3_counterexample :
    rx 0 0 QuantumSim.new = some QuantumSim.new ∧
      lookup QuantumSim.new.id_map 0 = none := by
  constructor
  · rw [rx, mcrotation]
    simp only [if_neg rot_zero_m00, if_pos rot_zero_m01]
  · rfl

end QSim

namespace QSim

/-! ### Identity-map well-formedness machinery -/

theorem IdMapWF_nil : IdMapWF [] := by
  constructor <;> simp [IdMapWF]

theorem IdMapWF.loc_lt {m : List (ℕ × ℕ)} (h : IdMapWF m) :
    ∀ p ∈ m, p.2 < m.length := by
  intro p hp
  have hmem : p.2 ∈ m.map Prod.snd := List.mem_map_of_mem Prod.snd hp
  have := h.2.mem_iff.1 hmem
  exact List.mem_range.1 this

theorem IdMapWF.snd_mem {m : List (ℕ × ℕ)} (h : IdMapWF m) (v : ℕ)
    (hv : v < m.length) : ∃ p ∈ m, p.2 = v := by
  have : v ∈ m.map Prod.snd := h.2.mem_iff.2 (List.mem_range.2 hv)
  rcases List.mem_map.1 this with ⟨p, hp, hpv⟩
  exact ⟨p, hp, hpv⟩

theorem mem_lookup {β : Type} (m : List (ℕ × β)) (k : ℕ) (v : β)
    (hnd : (m.map Prod.fst).Nodup) (hmem : (k, v) ∈ m) : lookup m k = some v := by
  induction m with
  | nil => simp at hmem
  | cons e rest ih =>
    rcases List.mem_cons.1 hmem with heq | hmem2
    · rw [← heq, lookup, if_pos rfl]
    · have hnd2 : e.1 ∉ List.map Prod.fst rest ∧ (List.map Prod.fst rest).Nodup := by
        rw [List.map_cons, List.nodup_cons] at hnd
        exact hnd
      by_cases hk : e.1 = k
      · exfalso
        apply hnd2.1
        rw [hk]
        exact List.mem_map_of_mem Prod.fst hmem2
      · rw [lookup, if_neg hk]
        exact ih hnd2.2 hmem2

theorem snd_insert_perm (m : List (ℕ × ℕ)) (k v v0 : ℕ)
    (hl : lookup m k = some v0) :
    ((insertEntry m k v).map Prod.snd).Perm (v :: ((m.map Prod.snd).erase v0)) := by
  induction m with
  | nil => simp [lookup] at hl
  | cons e rest ih =>
    by_cases hk : e.1 = k
    · rw [lookup, if_pos hk] at hl
      injection hl with hl
      rw [insertEntry, if_pos hk]
      simp only [List.map_cons]
      rw [hl, List.erase_cons_head]
    · rw [lookup, if_neg hk] at hl
      rw [insertEntry, if_neg hk]
      simp only [List.map_cons]
      have hv0mem : v0 ∈ rest.map Prod.snd := by
        have := lookup_mem rest k v0 hl
        exact List.mem_map_of_mem Prod.snd this
      by_cases hev : e.2 = v0
      · rw [hev, List.erase_cons_head]
        exact ((ih hl).cons v0).trans ((List.Perm.swap v v0 _).trans
          (((List.perm_cons_erase hv0mem).symm).cons v))
      · have herase : (e.2 :: List.map Prod.snd rest).erase v0
            = e.2 :: (List.map Prod.snd rest).erase v0 := by
          rw [List.erase_cons_tail]
          simp [hev]
        rw [herase]
        exact ((ih hl).cons e.2).trans (List.Perm.swap v e.2 _)

theorem keys_insertEntry_existing (m : List (ℕ × ℕ)) (k v : ℕ)
    (hl : (lookup m k).isSome) : keys (insertEntry m k v) = keys m :=
  keys_insertEntry_of_mem m k v ((lookup_isSome_iff m k).1 hl)

/-- Updating two existing ids with each other's locations preserves
identity-map well-formedness. -/
theorem IdMapWF_double_insert (m : List (ℕ × ℕ)) (q1 q2 v1 v2 : ℕ)
    (hwf : IdMapWF m) (h1 : lookup m q1 = some v1) (h2 : lookup m q2 = some v2) :
    IdMapWF (insertEntry (insertEntry m q1 v2) q2 v1) ∧
      (insertEntry (insertEntry m q1 v2) q2 v1).length = m.length := by
  have hk1 : keys (insertEntry m q1 v2) = keys m :=
    keys_insertEntry_existing m q1 v2 (by simp [h1])
  have hl2 : lookup (insertEntry m q1 v2) q2 = some v2 := by
    by_cases hq : q2 = q1
    · subst hq
      rw [lookup_insertEntry_self]
    · rw [lookup_insertEntry_ne _ _ _ _ hq]
      exact h2
  have hk2 : keys (insertEntry (insertEntry m q1 v2) q2 v1) = keys m := by
    rw [keys_insertEntry_existing _ q2 v1 (by simp [hl2]), hk1]
  have hlen : (insertEntry (insertEntry m q1 v2) q2 v1).length = m.length := by
    have : (keys (insertEntry (insertEntry m q1 v2) q2 v1)).length
        = (keys m).length := by rw [hk2]
    simpa [keys] using this
  refine ⟨⟨?_, ?_⟩, hlen⟩
  · rw [show (insertEntry (insertEntry m q1 v2) q2 v1).map Prod.fst
      = keys (insertEntry (insertEntry m q1 v2) q2 v1) from rfl, hk2]
    exact hwf.1
  · have hv1mem : v1 ∈ m.map Prod.snd :=
      List.mem_map_of_mem Prod.snd (lookup_mem m q1 v1 h1)
    have hp1 : ((insertEntry m q1 v2).map Prod.snd).Perm
        (v2 :: ((m.map Prod.snd).erase v1)) := snd_insert_perm m q1 v2 v1 h1
    have hp2 : ((insertEntry (insertEntry m q1 v2) q2 v1).map Prod.snd).Perm
        (v1 :: (((insertEntry m q1 v2).map Prod.snd).erase v2)) :=
      snd_insert_perm _ q2 v1 v2 hl2
    have hp3 : (((insertEntry m q1 v2).map Prod.snd).erase v2).Perm
        ((m.map Prod.snd).erase v1) := by
      have h := hp1.erase v2
      rw [List.erase_cons_head] at h
      exact h
    refine hp2.trans ((hp3.cons v1).trans
      ((((List.perm_cons_erase hv1mem).symm).trans hwf.2).trans ?_))
    rw [hlen]

theorem perm_cons_eraseEntry (m : List (ℕ × ℕ)) (k v : ℕ)
    (hl : lookup m k = some v) : m.Perm ((k, v) :: eraseEntry m k) := by
  induction m with
  | nil => simp [lookup] at hl
  | cons e rest ih =>
    by_cases hk : e.1 = k
    · rw [lookup, if_pos hk] at hl
      injection hl with hl
      rw [eraseEntry, if_pos hk]
      have he : e = (k, v) := by
        cases e
        simp only at hk hl
        rw [hk, hl]
      rw [he]
    · rw [lookup, if_neg hk] at hl
      rw [eraseEntry, if_neg hk]
      exact ((ih hl).cons e).trans (List.Perm.swap (k, v) e _)

/-- Removing the id holding the last location shrinks a well-formed map
to a well-formed map on one fewer location. -/
theorem IdMapWF_erase_last (m : List (ℕ × ℕ)) (k : ℕ)
    (hwf : IdMapWF m) (hl : lookup m k = some (m.length - 1)) (hne : m ≠ []) :
    IdMapWF (eraseEntry m k) ∧ (eraseEntry m k).length = m.length - 1 := by
  have hperm := perm_cons_eraseEntry m k (m.length - 1) hl
  have hlen : (eraseEntry m k).length = m.length - 1 := by
    have := hperm.length_eq
    simp only [List.length_cons] at this
    omega
  have hposlen : 0 < m.length := List.length_pos.2 hne
  refine ⟨⟨?_, ?_⟩, hlen⟩
  · have hkeysperm : (m.map Prod.fst).Perm
        (k :: (eraseEntry m k).map Prod.fst) := by
      have := hperm.map Prod.fst
      simpa using this
    have := hkeysperm.nodup hwf.1
    exact (List.nodup_cons.1 this).2
  · have hsndperm : (m.map Prod.snd).Perm
        ((m.length - 1) :: (eraseEntry m k).map Prod.snd) := by
      have := hperm.map Prod.snd
      simpa using this
    have hrange : (List.range m.length) =
        List.range (m.length - 1) ++ [m.length - 1] := by
      have : m.length = (m.length - 1) + 1 := by omega
      rw [this, List.range_succ]
      simp
    have hp : ((m.length - 1) :: (eraseEntry m k).map Prod.snd).Perm
        (List.range m.length) := hsndperm.symm.trans hwf.2
    have hp2 : ((eraseEntry m k).map Prod.snd).Perm
        ((List.range m.length).erase (m.length - 1)) := by
      have := hp.erase (m.length - 1)
      rw [List.erase_cons_head] at this
      exact this
    rw [hrange, List.erase_append_right _ (by simp), List.erase_cons_head,
      List.append_nil] at hp2
    rw [hlen]
    exact hp2

end QSim

namespace QSim

/-! ### Invariant preservation machinery -/

theorem foldl_preserve {α : Type} (l : List α) (step : List (ℕ × ℂ) → α → List (ℕ × ℂ))
    (P : ℕ × ℂ → Prop) (acc : List (ℕ × ℂ))
    (hacc : ∀ kv ∈ acc, P kv)
    (hstep : ∀ acc2 e, e ∈ l → (∀ kv ∈ acc2, P kv) → ∀ kv ∈ step acc2 e, P kv) :
    ∀ kv ∈ l.foldl step acc, P kv := by
  induction l generalizing acc with
  | nil => simpa using hacc
  | cons e rest ih =>
    rw [List.foldl_cons]
    exact ih (step acc e)
      (hstep acc e (List.mem_cons_self _ _) hacc)
      (fun acc2 f hf => hstep acc2 f (List.mem_cons_of_mem _ hf))

theorem lookup_lt (m : List (ℕ × ℕ)) (id loc : ℕ) (hwf : IdMapWF m)
    (hl : lookup m id = some loc) : loc < m.length :=
  hwf.loc_lt (id, loc) (lookup_mem m id loc hl)

theorem resolveList_mem (m : List (ℕ × ℕ)) (ids locs : List ℕ)
    (hres : resolveList m ids = some locs) :
    ∀ loc ∈ locs, ∃ id ∈ ids, lookup m id = some loc := by
  induction ids generalizing locs with
  | nil =>
    rw [resolveList] at hres
    injection hres with hres
    subst hres
    simp
  | cons a rest ih =>
    rw [resolveList] at hres
    cases hfa : lookup m a with
    | none => rw [hfa] at hres; exact absurd hres (by simp)
    | some b =>
      rw [hfa] at hres
      cases hrest : resolveList m rest with
      | none => rw [hrest] at hres; exact absurd hres (by simp)
      | some bs =>
        rw [hrest] at hres
        injection hres with hres
        subst hres
        intro loc hloc
        rcases List.mem_cons.1 hloc with rfl | hmem
        · exact ⟨a, List.mem_cons_self _ _, hfa⟩
        · rcases ih bs hrest loc hmem with ⟨id, hid, hlid⟩
          exact ⟨id, List.mem_cons_of_mem _ hid, hlid⟩

theorem resolve_some_inv (sim : QuantumSim) (target : ℕ) (ctls : List ℕ)
    (tloc : ℕ) (clocs : List ℕ)
    (hres : resolve_and_check_qubits sim target ctls = some (tloc, clocs)) :
    lookup sim.id_map target = some tloc ∧
      resolveList sim.id_map ctls = some clocs := by
  rw [resolve_and_check_qubits] at hres
  cases hl : lookup sim.id_map target with
  | none => rw [hl] at hres; exact absurd hres (by simp)
  | some t2 =>
    rw [hl] at hres
    cases hc : resolveList sim.id_map ctls with
    | none => rw [hc] at hres; exact absurd hres (by simp)
    | some c2 =>
      rw [hc] at hres
      dsimp only at hres
      by_cases hdup : (firstAdjacentDup
          (List.insertionSort (· ≤ ·) (c2 ++ [t2]))).isSome
      · rw [if_pos hdup] at hres
        exact absurd hres (by simp)
      · rw [if_neg hdup] at hres
        injection hres with hres
        injection hres with h1 h2
        exact ⟨by rw [h1], by rw [h2]⟩

theorem resolve_locs_lt (sim : QuantumSim) (target : ℕ) (ctls : List ℕ)
    (tloc : ℕ) (clocs : List ℕ) (hwf : IdMapWF sim.id_map)
    (hres : resolve_and_check_qubits sim target ctls = some (tloc, clocs)) :
    tloc < sim.id_map.length ∧ ∀ c ∈ clocs, c < sim.id_map.length := by
  obtain ⟨h1, h2⟩ := resolve_some_inv sim target ctls tloc clocs hres
  refine ⟨lookup_lt _ _ _ hwf h1, ?_⟩
  intro c hc
  rcases resolveList_mem _ _ _ h2 c hc with ⟨id, _, hl⟩
  exact lookup_lt _ _ _ hwf hl

/-- `controlled_gate` preserves the invariant whenever the transform keeps
keys below the current bound. -/
theorem controlled_gate_inv (sim sim2 : QuantumSim) (ctls : List ℕ) (target : ℕ)
    (op : ℕ × ℂ → ℕ → ℕ × ℂ) (hinv : Inv sim)
    (hop : ∀ kv tloc, tloc < sim.id_map.length →
      kv.1 < 2 ^ sim.id_map.length → (op kv tloc).1 < 2 ^ sim.id_map.length)
    (h : controlled_gate ctls target op sim = some sim2) : Inv sim2 := by
  rw [controlled_gate] at h
  cases hres : resolve_and_check_qubits sim target ctls with
  | none => rw [hres] at h; exact absurd h (by simp)
  | some pr =>
    rw [hres] at h
    injection h with h
    subst h
    refine ⟨hinv.1, ?_⟩
    intro kv hkv
    have htloc := (resolve_locs_lt sim target ctls pr.1 pr.2 hinv.1 (by
      rw [hres])).1
    refine foldl_preserve sim.state _ (fun kv => kv.1 < 2 ^ sim.id_map.length) []
      (by simp) ?_ kv hkv
    intro acc2 e he hacc2
    dsimp only
    by_cases hprune : ¬ isNearlyZero
        (if pr.2.all fun c => e.1.testBit c then op e pr.1 else e).2
    · rw [if_pos hprune]
      apply forall_insertEntry _ _ _ _ hacc2
      by_cases hctl : pr.2.all fun c => e.1.testBit c
      · simp only [hctl, if_true]
        exact hop e pr.1 htloc (hinv.2 e he)
      · simp only [hctl, if_false]
        exact hinv.2 e he
    · rw [if_neg hprune]
      exact hacc2

theorem x_transform_bound (n : ℕ) :
    ∀ (kv : ℕ × ℂ) (tloc : ℕ), tloc < n → kv.1 < 2 ^ n →
      (x_transform kv tloc).1 < 2 ^ n := by
  intro kv tloc ht hk
  exact setBitN_lt _ _ _ _ hk ht

theorem y_transform_bound (n : ℕ) :
    ∀ (kv : ℕ × ℂ) (tloc : ℕ), tloc < n → kv.1 < 2 ^ n →
      (y_transform kv tloc).1 < 2 ^ n := by
  intro kv tloc ht hk
  exact setBitN_lt _ _ _ _ hk ht

theorem phase_transform_bound (n : ℕ) (phase : ℂ) :
    ∀ (kv : ℕ × ℂ) (tloc : ℕ), tloc < n → kv.1 < 2 ^ n →
      (phase_transform phase kv tloc).1 < 2 ^ n := by
  intro kv tloc _ hk
  exact hk

theorem rz_transform_bound (n : ℕ) (theta : ℝ) :
    ∀ (kv : ℕ × ℂ) (tloc : ℕ), tloc < n → kv.1 < 2 ^ n →
      (rz_transform kv theta tloc).1 < 2 ^ n := by
  intro kv tloc _ hk
  exact hk

end QSim

namespace QSim

theorem mchEntry_bound (old : List (ℕ × ℂ)) (target n : ℕ) (clocs : List ℕ)
    (accum : List (ℕ × ℂ)) (e : ℕ × ℂ) (ht : target < n) (he : e.1 < 2 ^ n)
    (hacc : ∀ kv ∈ accum, kv.1 < 2 ^ n) :
    ∀ kv ∈ mchEntry old target clocs accum e, kv.1 < 2 ^ n := by
  obtain ⟨index, value⟩ := e
  simp only at he
  have hor : index ||| (1 <<< target) < 2 ^ n := by
    rw [one_shiftLeft_eq]
    exact or_two_pow_lt _ _ _ he ht
  have hsbf : setBitN index target false < 2 ^ n := setBitN_lt _ _ _ _ he ht
  have hsbt : setBitN index target true < 2 ^ n := setBitN_lt _ _ _ _ he ht
  rw [mchEntry]
  dsimp only
  split_ifs <;>
    first
      | exact hacc
      | exact forall_insertEntry _ _ _ _ hacc he
      | exact forall_insertEntry _ _ _ _ (forall_insertEntry _ _ _ _ hacc hsbf) hsbt
      | exact forall_insertEntry _ _ _ _ hacc hor
      | exact forall_insertEntry _ _ _ _ (forall_insertEntry _ _ _ _ hacc he) hor

theorem mcrotationEntry_bound (old : List (ℕ × ℂ)) (m00 m01 m10 : ℂ)
    (target n : ℕ) (clocs : List ℕ) (accum : List (ℕ × ℂ)) (e : ℕ × ℂ)
    (ht : target < n) (he : e.1 < 2 ^ n)
    (hacc : ∀ kv ∈ accum, kv.1 < 2 ^ n) :
    ∀ kv ∈ mcrotationEntry old m00 m01 m10 target clocs accum e, kv.1 < 2 ^ n := by
  obtain ⟨index, value⟩ := e
  simp only at he
  have hxor : index ^^^ (1 <<< target) < 2 ^ n := by
    rw [one_shiftLeft_eq]
    exact xor_two_pow_lt _ _ _ he ht
  rw [mcrotationEntry]
  dsimp only
  split_ifs <;>
    first
      | exact hacc
      | exact forall_insertEntry _ _ _ _ hacc he
      | exact forall_insertEntry _ _ _ _ hacc hxor
      | exact forall_insertEntry _ _ _ _ (forall_insertEntry _ _ _ _ hacc hxor) he
      | exact forall_insertEntry _ _ _ _ (forall_insertEntry _ _ _ _ hacc he) hxor

theorem mch_inv (sim sim2 : QuantumSim) (ctls : List ℕ) (target : ℕ)
    (hinv : Inv sim) (h : mch ctls target sim = some sim2) : Inv sim2 := by
  rw [mch] at h
  cases hres : resolve_and_check_qubits sim target ctls with
  | none => rw [hres] at h; exact absurd h (by simp)
  | some pr =>
    rw [hres] at h
    injection h with h
    subst h
    refine ⟨hinv.1, ?_⟩
    intro kv hkv
    have htloc := (resolve_locs_lt sim target ctls pr.1 pr.2 hinv.1 (by rw [hres])).1
    refine foldl_preserve sim.state _ (fun kv => kv.1 < 2 ^ sim.id_map.length) []
      (by simp) ?_ kv hkv
    intro acc2 e he hacc2
    exact mchEntry_bound sim.state pr.1 sim.id_map.length pr.2 acc2 e htloc
      (hinv.2 e he) hacc2

theorem collapse_fold_keys (mask : ℕ) (val : Bool) (st acc0 : List (ℕ × ℂ))
    (d0 : ℝ) (P : ℕ → Prop)
    (hst : ∀ kv ∈ st, maskParity kv.1 mask = val → P kv.1)
    (hacc : ∀ kv ∈ acc0, P kv.1) :
    ∀ kv ∈ (st.foldl
      (fun (acc : List (ℕ × ℂ) × ℝ) kv =>
        if maskParity kv.1 mask = val then
          (insertEntry acc.1 kv.1 kv.2, acc.2 + Complex.normSq kv.2)
        else acc)
      (acc0, d0)).1, P kv.1 := by
  induction st generalizing acc0 d0 with
  | nil => simpa using hacc
  | cons e rest ih =>
    rw [List.foldl_cons]
    by_cases hp : maskParity e.1 mask = val
    · rw [if_pos hp]
      exact ih (insertEntry acc0 e.1 e.2) _
        (fun kv hkv hpkv => hst kv (List.mem_cons_of_mem _ hkv) hpkv)
        (forall_insertEntry _ _ _ _ hacc (hst e (List.mem_cons_self _ _) hp))
    · rw [if_neg hp]
      exact ih acc0 d0
        (fun kv hkv hpkv => hst kv (List.mem_cons_of_mem _ hkv) hpkv) hacc

theorem joint_collapse_state_keys (locs : List ℕ) (val : Bool) (sim : QuantumSim)
    (P : ℕ → Prop)
    (hst : ∀ kv ∈ sim.state, maskParity kv.1 (locsMask locs) = val → P kv.1) :
    ∀ kv ∈ (joint_collapse locs val sim).state, P kv.1 := by
  intro kv hkv
  rw [joint_collapse] at hkv
  dsimp only at hkv
  rcases List.mem_map.1 hkv with ⟨kv0, hkv0, hmap⟩
  have := collapse_fold_keys (locsMask locs) val sim.state [] 0 P hst (by simp)
    kv0 hkv0
  rw [← hmap]
  exact this

theorem joint_collapse_inv (locs : List ℕ) (val : Bool) (sim : QuantumSim)
    (hinv : Inv sim) : Inv (joint_collapse locs val sim) := by
  refine ⟨hinv.1, ?_⟩
  intro kv hkv
  exact joint_collapse_state_keys locs val sim (fun k => k < 2 ^ sim.id_map.length)
    (fun kv2 hkv2 _ => hinv.2 kv2 hkv2) kv hkv

theorem joint_collapse_parity (locs : List ℕ) (val : Bool) (sim : QuantumSim) :
    ∀ kv ∈ (joint_collapse locs val sim).state,
      maskParity kv.1 (locsMask locs) = val :=
  joint_collapse_state_keys locs val sim
    (fun k => maskParity k (locsMask locs) = val) (fun _ _ hp => hp)

theorem measure_impl_inv (sample : ℝ) (loc : ℕ) (sim : QuantumSim)
    (hinv : Inv sim) : Inv (measure_impl sample loc sim).2 := by
  rw [measure_impl]
  exact joint_collapse_inv _ _ _ hinv

end QSim

namespace QSim

theorem lt_of_testBit_high_false (k n : ℕ) (hk : k < 2 ^ (n + 1))
    (hb : k.testBit n = false) : k < 2 ^ n := by
  have hdiv : k / 2 ^ n < 2 := by
    rw [Nat.div_lt_iff_lt_mul (by positivity)]
    calc k < 2 ^ (n + 1) := hk
      _ = 2 * 2 ^ n := by ring
  have hmod : k / 2 ^ n % 2 ≠ 1 := by
    rw [Nat.testBit_to_div_mod] at hb
    simpa using hb
  have h0 : k / 2 ^ n = 0 := by
    interval_cases h : k / 2 ^ n
    · rfl
    · exact absurd rfl hmod
  have hklt : k % 2 ^ n < 2 ^ n := Nat.mod_lt _ (by positivity)
  calc k = 2 ^ n * (k / 2 ^ n) + k % 2 ^ n := (Nat.div_add_mod k (2 ^ n)).symm
    _ = k % 2 ^ n := by rw [h0]; ring
    _ < 2 ^ n := hklt

theorem swap_qubit_state_bound (st : List (ℕ × ℂ)) (q1 q2 n : ℕ)
    (h1 : q1 < n) (h2 : q2 < n) (hst : ∀ kv ∈ st, kv.1 < 2 ^ n) :
    ∀ kv ∈ swap_qubit_state st q1 q2, kv.1 < 2 ^ n := by
  rw [swap_qubit_state]
  by_cases hq : q1 = q2
  · rw [if_pos hq]
    exact hst
  · rw [if_neg hq]
    refine foldl_preserve st _ (fun kv => kv.1 < 2 ^ n) [] (by simp) ?_
    intro acc2 e he hacc2
    dsimp only
    by_cases hb : e.1.testBit q1 = e.1.testBit q2
    · rw [if_pos hb]
      exact forall_insertEntry _ _ _ _ hacc2 (hst e he)
    · rw [if_neg hb]
      exact forall_insertEntry _ _ _ _ hacc2
        (setBitN_lt _ _ _ _ (setBitN_lt _ _ _ _ (hst e he) h1) h2)

theorem mcx_inv (sim sim2 : QuantumSim) (ctls : List ℕ) (target : ℕ)
    (hinv : Inv sim) (h : mcx ctls target sim = some sim2) : Inv sim2 :=
  controlled_gate_inv sim sim2 ctls target x_transform hinv
    (fun kv tloc ht hk => x_transform_bound _ kv tloc ht hk) h

theorem mcy_inv (sim sim2 : QuantumSim) (ctls : List ℕ) (target : ℕ)
    (hinv : Inv sim) (h : mcy ctls target sim = some sim2) : Inv sim2 :=
  controlled_gate_inv sim sim2 ctls target y_transform hinv
    (fun kv tloc ht hk => y_transform_bound _ kv tloc ht hk) h

theorem mcz_inv (sim sim2 : QuantumSim) (ctls : List ℕ) (target : ℕ)
    (hinv : Inv sim) (h : mcz ctls target sim = some sim2) : Inv sim2 :=
  controlled_gate_inv sim sim2 ctls target z_transform hinv
    (fun kv tloc ht hk => phase_transform_bound _ _ kv tloc ht hk) h

theorem mcs_inv (sim sim2 : QuantumSim) (ctls : List ℕ) (target : ℕ)
    (hinv : Inv sim) (h : mcs ctls target sim = some sim2) : Inv sim2 :=
  controlled_gate_inv sim sim2 ctls target s_transform hinv
    (fun kv tloc ht hk => phase_transform_bound _ _ kv tloc ht hk) h

theorem mcsadj_inv (sim sim2 : QuantumSim) (ctls : List ℕ) (target : ℕ)
    (hinv : Inv sim) (h : mcsadj ctls target sim = some sim2) : Inv sim2 :=
  controlled_gate_inv sim sim2 ctls target sadj_transform hinv
    (fun kv tloc ht hk => phase_transform_bound _ _ kv tloc ht hk) h

theorem mct_inv (sim sim2 : QuantumSim) (ctls : List ℕ) (target : ℕ)
    (hinv : Inv sim) (h : mct ctls target sim = some sim2) : Inv sim2 :=
  controlled_gate_inv sim sim2 ctls target t_transform hinv
    (fun kv tloc ht hk => phase_transform_bound _ _ kv tloc ht hk) h

theorem mctadj_inv (sim sim2 : QuantumSim) (ctls : List ℕ) (target : ℕ)
    (hinv : Inv sim) (h : mctadj ctls target sim = some sim2) : Inv sim2 :=
  controlled_gate_inv sim sim2 ctls target tadj_transform hinv
    (fun kv tloc ht hk => phase_transform_bound _ _ kv tloc ht hk) h

theorem mcrz_inv (sim sim2 : QuantumSim) (ctls : List ℕ) (theta : ℝ) (target : ℕ)
    (hinv : Inv sim) (h : mcrz ctls theta target sim = some sim2) : Inv sim2 :=
  controlled_gate_inv sim sim2 ctls target _ hinv
    (fun kv tloc ht hk => rz_transform_bound _ _ kv tloc ht hk) h

theorem mcphase_inv (sim sim2 : QuantumSim) (ctls : List ℕ) (phase : ℂ)
    (target : ℕ) (hinv : Inv sim) (h : mcphase ctls phase target sim = some sim2) :
    Inv sim2 :=
  controlled_gate_inv sim sim2 ctls target _ hinv
    (fun kv tloc ht hk => phase_transform_bound _ _ kv tloc ht hk) h

theorem mcrotation_inv (sim sim2 : QuantumSim) (ctls : List ℕ) (theta : ℝ)
    (target : ℕ) (sf : Bool) (hinv : Inv sim)
    (h : mcrotation ctls theta target sf sim = some sim2) : Inv sim2 := by
  rw [mcrotation] at h
  by_cases h0 : isNearlyZero (rotationM00 theta)
  · rw [if_pos h0] at h
    cases sf with
    | true => exact mcy_inv sim sim2 ctls target hinv (by simpa using h)
    | false => exact mcx_inv sim sim2 ctls target hinv (by simpa using h)
  · rw [if_neg h0] at h
    by_cases h1 : isNearlyZero (rotationM01 theta sf)
    · rw [if_pos h1] at h
      injection h with h
      subst h
      exact hinv
    · rw [if_neg h1] at h
      cases hres : resolve_and_check_qubits sim target ctls with
      | none => rw [hres] at h; exact absurd h (by simp)
      | some pr =>
        rw [hres] at h
        injection h with h
        subst h
        refine ⟨hinv.1, ?_⟩
        intro kv hkv
        have htloc := (resolve_locs_lt sim target ctls pr.1 pr.2 hinv.1
          (by rw [hres])).1
        refine foldl_preserve sim.state _ (fun kv => kv.1 < 2 ^ sim.id_map.length)
          [] (by simp) ?_ kv hkv
        intro acc2 e he hacc2
        exact mcrotationEntry_bound sim.state _ _ _ pr.1 sim.id_map.length pr.2
          acc2 e htloc (hinv.2 e he) hacc2

theorem measure_inv (sample : ℝ) (id : ℕ) (b : Bool) (sim sim2 : QuantumSim)
    (hinv : Inv sim) (h : measure sample id sim = some (b, sim2)) : Inv sim2 := by
  rw [measure] at h
  cases hl : lookup sim.id_map id with
  | none => rw [hl] at h; exact absurd h (by simp)
  | some loc =>
    rw [hl] at h
    injection h with h
    have h2 := congrArg Prod.snd h
    dsimp only at h2
    rw [← h2]
    exact measure_impl_inv sample loc sim hinv

theorem joint_measure_inv (sample : ℝ) (ids : List ℕ) (b : Bool)
    (sim sim2 : QuantumSim) (hinv : Inv sim)
    (h : joint_measure sample ids sim = some (b, sim2)) : Inv sim2 := by
  rw [joint_measure] at h
  by_cases hdup : (firstAdjacentDup (List.insertionSort (· ≤ ·) ids)).isSome
  · rw [if_pos hdup] at h
    exact absurd h (by simp)
  · rw [if_neg hdup] at h
    cases hres : resolveAll sim ids with
    | none => rw [hres] at h; exact absurd h (by simp)
    | some locs =>
      rw [hres] at h
      injection h with h
      have h2 := congrArg Prod.snd h
      dsimp only at h2
      rw [← h2]
      exact joint_collapse_inv _ _ _ hinv

theorem swap_qubit_ids_inv (q1 q2 : ℕ) (sim sim2 : QuantumSim) (hinv : Inv sim)
    (h : swap_qubit_ids q1 q2 sim = some sim2) : Inv sim2 := by
  rw [swap_qubit_ids] at h
  cases hl1 : lookup sim.id_map q1 with
  | none => rw [hl1] at h; exact absurd h (by simp)
  | some m1 =>
    cases hl2 : lookup sim.id_map q2 with
    | none => rw [hl1, hl2] at h; exact absurd h (by simp)
    | some m2 =>
      rw [hl1, hl2] at h
      injection h with h
      subst h
      obtain ⟨hwf, hlen⟩ := IdMapWF_double_insert sim.id_map q1 q2 m1 m2
        hinv.1 hl1 hl2
      refine ⟨hwf, ?_⟩
      intro kv hkv
      rw [show (insertEntry (insertEntry sim.id_map q1 m2) q2 m1).length
        = sim.id_map.length from hlen]
      exact hinv.2 kv hkv

end QSim

namespace QSim

theorem allocate_fst_not_mem (sim : QuantumSim)
    (hnd : (keys sim.id_map).Nodup) : (allocate sim).1 ∉ keys sim.id_map := by
  have hperm : (List.insertionSort (· ≤ ·) (keys sim.id_map)).Perm (keys sim.id_map) :=
    List.perm_insertionSort _ _
  have hsort : List.Sorted (· < ·) (List.insertionSort (· ≤ ·) (keys sim.id_map)) :=
    (List.sorted_insertionSort _ _).lt_of_le (hperm.symm.nodup hnd)
  have haux := newKey_aux (List.insertionSort (· ≤ ·) (keys sim.id_map)) 0 hsort
    (by simp)
  rw [← List.enum_eq_enumFrom] at haux
  intro hmem
  exact haux.1 (hperm.mem_iff.2 hmem)

theorem allocate_inv (sim : QuantumSim) (hinv : Inv sim) : Inv (allocate sim).2 := by
  have hnotmem : (allocate sim).1 ∉ keys sim.id_map :=
    allocate_fst_not_mem sim hinv.1.1
  have hlsort : (List.insertionSort (· ≤ ·) (keys sim.id_map)).length
      = sim.id_map.length := by
    rw [(List.perm_insertionSort _ _).length_eq]
    simp [keys]
  have hsnd : (allocate sim).2.id_map
      = insertEntry sim.id_map (allocate sim).1
          (List.insertionSort (· ≤ ·) (keys sim.id_map)).length := rfl
  have happend : (allocate sim).2.id_map
      = sim.id_map ++ [((allocate sim).1, sim.id_map.length)] := by
    rw [hsnd, insertEntry_of_lookup_none _ _ _
      ((lookup_eq_none_iff _ _).2 hnotmem), hlsort]
  have hlen : (allocate sim).2.id_map.length = sim.id_map.length + 1 := by
    rw [happend]
    simp
  constructor
  · constructor
    · rw [happend]
      simp only [List.map_append, List.map_cons, List.map_nil]
      rw [List.nodup_append]
      refine ⟨hinv.1.1, by simp, ?_⟩
      intro a ha
      simp only [List.mem_singleton]
      intro hc
      exact hnotmem (hc ▸ ha)
    · rw [happend]
      simp only [List.map_append, List.map_cons, List.map_nil, List.length_append,
        List.length_cons, List.length_nil, Nat.zero_add]
      rw [List.range_succ]
      exact hinv.1.2.append (List.Perm.refl _)
  · intro kv hkv
    rw [hlen]
    have hstate : (allocate sim).2.state
        = if sim.id_map.isEmpty then insertEntry sim.state 0 1 else sim.state := rfl
    rw [hstate] at hkv
    have hbig : (2:ℕ) ^ sim.id_map.length < 2 ^ (sim.id_map.length + 1) := by
      have : (0:ℕ) < 2 ^ sim.id_map.length := by positivity
      calc (2:ℕ) ^ sim.id_map.length < 2 ^ sim.id_map.length * 2 := by omega
        _ = 2 ^ (sim.id_map.length + 1) := by ring
    by_cases hemp : sim.id_map.isEmpty
    · rw [if_pos hemp] at hkv
      rcases mem_insertEntry _ _ _ _ hkv with rfl | hkv2
      · positivity
      · exact lt_trans (hinv.2 kv hkv2) hbig
    · rw [if_neg hemp] at hkv
      exact lt_trans (hinv.2 kv hkv) hbig

theorem release_inv (sample : ℝ) (id : ℕ) (sim sim2 : QuantumSim)
    (hinv : Inv sim) (h : release sample id sim = some sim2) : Inv sim2 := by
  rw [release] at h
  cases hl : lookup sim.id_map id with
  | none => rw [hl] at h; exact absurd h (by simp)
  | some loc =>
    rw [hl] at h
    dsimp only at h
    have hnne : sim.id_map ≠ [] := by
      intro hc
      rw [hc] at hl
      simp [lookup] at hl
    have hpos : 0 < sim.id_map.length := List.length_pos.2 hnne
    have hloc_lt : loc < sim.id_map.length := lookup_lt _ _ _ hinv.1 hl
    have hlast_lt : sim.id_map.length - 1 < sim.id_map.length := by omega
    -- the intermediate simulator after the conditional swap
    have hmain : ∀ simm : QuantumSim, Inv simm →
        simm.id_map.length = sim.id_map.length →
        lookup simm.id_map id = some (sim.id_map.length - 1) →
        (match some simm with
          | none => none
          | some sim3 =>
            some ⟨(if (measure_impl sample (sim.id_map.length - 1) sim3).1 then
                (measure_impl sample (sim.id_map.length - 1) sim3).2.state.foldl
                  (fun accum kv =>
                    insertEntry accum
                      (setBitN kv.1
                        (eraseEntry
                          (measure_impl sample (sim.id_map.length - 1) sim3).2.id_map
                          id).length
                        (! kv.1.testBit
                          (eraseEntry
                            (measure_impl sample (sim.id_map.length - 1) sim3).2.id_map
                            id).length))
                      kv.2) []
              else (measure_impl sample (sim.id_map.length - 1) sim3).2.state),
              eraseEntry
                (measure_impl sample (sim.id_map.length - 1) sim3).2.id_map id⟩
          : Option QuantumSim) = some sim2 → Inv sim2 := by
      intro simm hinvm hlenm hlm hh
      injection hh with hh
      subst hh
      set mres := measure_impl sample (sim.id_map.length - 1) simm with hmres
      have hidm : mres.2.id_map = simm.id_map := rfl
      have hinv3 : Inv mres.2 := measure_impl_inv _ _ _ hinvm
      have herase := IdMapWF_erase_last mres.2.id_map id hinv3.1
        (by rw [hidm, hlm, hlenm]) (by
          rw [hidm]
          intro hc
          rw [hc] at hlm
          simp [lookup] at hlm)
      have hlen3 : (eraseEntry mres.2.id_map id).length = sim.id_map.length - 1 := by
        rw [herase.2, hidm, hlenm]
      have hparity : ∀ kv ∈ mres.2.state,
          kv.1.testBit (sim.id_map.length - 1) = mres.1 := by
        intro kv hkv
        have hp := joint_collapse_parity [sim.id_map.length - 1] mres.1 simm kv (by
          rw [hmres] at hkv ⊢
          rw [measure_impl] at hkv
          exact hkv)
        rw [locsMask_single, maskParity_two_pow] at hp
        exact hp
      have hbound3 : ∀ kv ∈ mres.2.state, kv.1 < 2 ^ sim.id_map.length := by
        intro kv hkv
        have := hinv3.2 kv hkv
        rw [hidm, hlenm] at this
        exact this
      have hn1 : sim.id_map.length - 1 + 1 = sim.id_map.length := by omega
      refine ⟨herase.1, ?_⟩
      intro kv hkv
      dsimp only at hkv
      rw [hlen3]
      cases hres : mres.1 with
      | false =>
        rw [hres] at hkv
        rw [if_neg (by simp)] at hkv
        refine lt_of_testBit_high_false _ _ ?_ ?_
        · rw [hn1]
          exact hbound3 kv hkv
        · have := hparity kv hkv
          rw [hres] at this
          exact this
      | true =>
        rw [hres] at hkv
        rw [if_pos rfl] at hkv
        refine foldl_preserve mres.2.state _
          (fun kv => kv.1 < 2 ^ (sim.id_map.length - 1)) [] (by simp) ?_ kv hkv
        intro acc2 e he hacc2
        dsimp only
        apply forall_insertEntry _ _ _ _ hacc2
        rw [hlen3]
        refine lt_of_testBit_high_false _ _ ?_ ?_
        · rw [hn1]
          exact setBitN_lt _ _ _ _ (hbound3 e he) (hn1 ▸ hlast_lt)
        · rw [testBit_setBitN_self]
          have := hparity e he
          rw [hres] at this
          rw [this]
          simp
    by_cases hne : sim.id_map.length - 1 ≠ loc
    · rw [if_pos hne] at h
      cases hfind : sim.id_map.find? fun p => p.2 == sim.id_map.length - 1 with
      | none =>
        exfalso
        obtain ⟨p, hp, hpv⟩ := hinv.1.snd_mem (sim.id_map.length - 1) hlast_lt
        have := List.find?_eq_none.1 hfind p hp
        simp [hpv] at this
      | some lastEntry =>
        rw [hfind] at h
        have hlmem : lastEntry ∈ sim.id_map := List.mem_of_find?_eq_some hfind
        have hlval : lastEntry.2 = sim.id_map.length - 1 := by
          have := List.find?_some hfind
          simpa using this
        have hllook : lookup sim.id_map lastEntry.1 = some (sim.id_map.length - 1) := by
          rw [← hlval]
          exact mem_lookup _ _ _ hinv.1.1 (by simpa using hlmem)
        have hne2 : lastEntry.1 ≠ id := by
          intro hc
          rw [hc, hl] at hllook
          injection hllook with hcc
          omega
        obtain ⟨hwf2, hlen2⟩ := IdMapWF_double_insert sim.id_map lastEntry.1 id
          (sim.id_map.length - 1) loc hinv.1 hllook hl
        refine hmain ⟨swap_qubit_state sim.state loc (sim.id_map.length - 1),
          insertEntry (insertEntry sim.id_map lastEntry.1 loc) id
            (sim.id_map.length - 1)⟩ ⟨hwf2, ?_⟩ hlen2 (by
            dsimp only
            rw [lookup_insertEntry_self]) h
        intro kv hkv
        dsimp only at hkv ⊢
        rw [hlen2]
        exact swap_qubit_state_bound sim.state loc (sim.id_map.length - 1)
          sim.id_map.length hloc_lt hlast_lt (hinv.2) kv hkv
    · rw [if_neg hne] at h
      push_neg at hne
      refine hmain sim hinv rfl (by rw [hl, hne]) h

end QSim

namespace QSim

theorem mem_enumFrom_lt {α : Type} (l : List α) (n : ℕ) :
    ∀ p ∈ List.enumFrom n l, p.1 < n + l.length := by
  induction l generalizing n with
  | nil => simp
  | cons a rest ih =>
    intro p hp
    rcases List.mem_cons.1 hp with rfl | hp2
    · simp
    · have := ih (n + 1) p hp2
      simp only [List.length_cons]
      omega

theorem dump_inv (sim sim2 : QuantumSim) (hinv : Inv sim)
    (h : dump sim = some sim2) : Inv sim2 := by
  rw [dump] at h
  have hlsort : (List.insertionSort (· ≤ ·) (keys sim.id_map)).length
      = sim.id_map.length := by
    rw [(List.perm_insertionSort _ _).length_eq]
    simp [keys]
  have hidx : ∀ p ∈ (List.insertionSort (· ≤ ·) (keys sim.id_map)).enum,
      p.1 < sim.id_map.length := by
    intro p hp
    rw [List.enum_eq_enumFrom] at hp
    have := mem_enumFrom_lt _ 0 p hp
    rw [hlsort] at this
    omega
  revert h
  generalize hl : (List.insertionSort (· ≤ ·) (keys sim.id_map)).enum = l
  rw [hl] at hidx
  have key : ∀ (l2 : List (ℕ × ℕ)) (acc : Option QuantumSim),
      (∀ p ∈ l2, p.1 < sim.id_map.length) →
      (∀ cur, acc = some cur → Inv cur ∧ cur.id_map.length = sim.id_map.length) →
      ∀ s2, l2.foldl
        (fun acc p =>
          match acc with
          | none => none
          | some cur =>
            match lookup cur.id_map p.2 with
            | none => none
            | some curLoc =>
              if p.1 ≠ curLoc then
                match cur.id_map.find? fun q => q.2 == p.1 with
                | none => none
                | some swapped =>
                  some ⟨swap_qubit_state cur.state curLoc p.1,
                    insertEntry (insertEntry cur.id_map swapped.1 curLoc) p.2 p.1⟩
              else some cur) acc = some s2 →
      Inv s2 ∧ s2.id_map.length = sim.id_map.length := by
    intro l2
    induction l2 with
    | nil =>
      intro acc _ hacc s2 hfold
      simp only [List.foldl_nil] at hfold
      exact hacc s2 hfold
    | cons p rest ih =>
      intro acc hmem hacc s2 hfold
      rw [List.foldl_cons] at hfold
      refine ih _ (fun q hq => hmem q (List.mem_cons_of_mem _ hq)) ?_ s2 hfold
      intro cur2 hcur2
      cases haccv : acc with
      | none => rw [haccv] at hcur2; exact absurd hcur2 (by simp)
      | some cur =>
        rw [haccv] at hcur2
        obtain ⟨hinvc, hlenc⟩ := hacc cur haccv
        dsimp only at hcur2
        cases hlook : lookup cur.id_map p.2 with
        | none => rw [hlook] at hcur2; exact absurd hcur2 (by simp)
        | some curLoc =>
          rw [hlook] at hcur2
          dsimp only at hcur2
          by_cases hneq : p.1 ≠ curLoc
          · rw [if_pos hneq] at hcur2
            cases hfind : cur.id_map.find? fun q => q.2 == p.1 with
            | none => rw [hfind] at hcur2; exact absurd hcur2 (by simp)
            | some swapped =>
              rw [hfind] at hcur2
              dsimp only at hcur2
              injection hcur2 with hcur2
              subst hcur2
              have hsmem : swapped ∈ cur.id_map := List.mem_of_find?_eq_some hfind
              have hsval : swapped.2 = p.1 := by
                have := List.find?_some hfind
                simpa using this
              have hslook : lookup cur.id_map swapped.1 = some p.1 := by
                rw [← hsval]
                exact mem_lookup _ _ _ hinvc.1.1 (by simpa using hsmem)
              obtain ⟨hwf2, hlen2⟩ := IdMapWF_double_insert cur.id_map swapped.1
                p.2 p.1 curLoc hinvc.1 hslook hlook
              refine ⟨⟨hwf2, ?_⟩, by dsimp only; rw [hlen2, hlenc]⟩
              intro kv hkv
              dsimp only at hkv ⊢
              rw [hlen2, hlenc]
              refine swap_qubit_state_bound cur.state curLoc p.1 sim.id_map.length
                ?_ (hmem p (List.mem_cons_self _ _)) ?_ kv hkv
              · rw [← hlenc]
                exact lookup_lt _ _ _ hinvc.1 hlook
              · intro kv2 hkv2
                rw [← hlenc]
                exact hinvc.2 kv2 hkv2
          · rw [if_neg hneq] at hcur2
            injection hcur2 with hcur2
            subst hcur2
            exact ⟨hinvc, hlenc⟩
  intro h
  exact (key l (some sim) hidx
    (fun cur hcur => by
      injection hcur with hcur
      subst hcur
      exact ⟨hinv, rfl⟩) sim2 h).1

end QSim

namespace QSim

/-- Every public operation preserves the inductive invariant. -/
theorem step_preserves_inv (sim sim2 : QuantumSim) (hstep : Step sim sim2)
    (hinv : Inv sim) : Inv sim2 := by
  cases hstep with
  | allocate _ => exact allocate_inv sim hinv
  | release sample id _ _ h => exact release_inv sample id sim sim2 hinv h
  | swap_qubit_ids q1 q2 _ _ h => exact swap_qubit_ids_inv q1 q2 sim sim2 hinv h
  | mcx ctls target _ _ h => exact mcx_inv sim sim2 ctls target hinv h
  | mcy ctls target _ _ h => exact mcy_inv sim sim2 ctls target hinv h
  | mcz ctls target _ _ h => exact mcz_inv sim sim2 ctls target hinv h
  | mcs ctls target _ _ h => exact mcs_inv sim sim2 ctls target hinv h
  | mcsadj ctls target _ _ h => exact mcsadj_inv sim sim2 ctls target hinv h
  | mct ctls target _ _ h => exact mct_inv sim sim2 ctls target hinv h
  | mctadj ctls target _ _ h => exact mctadj_inv sim sim2 ctls target hinv h
  | mcrz ctls theta target _ _ h => exact mcrz_inv sim sim2 ctls theta target hinv h
  | mcphase ctls phase target _ _ h =>
    exact mcphase_inv sim sim2 ctls phase target hinv h
  | mch ctls target _ _ h => exact mch_inv sim sim2 ctls target hinv h
  | mcrotation ctls theta target sf _ _ h =>
    exact mcrotation_inv sim sim2 ctls theta target sf hinv h
  | measure sample id b _ _ h => exact measure_inv sample id b sim sim2 hinv h
  | joint_measure sample ids b _ _ h =>
    exact joint_measure_inv sample ids b sim sim2 hinv h
  | dump _ _ h => exact dump_inv sim sim2 hinv h

theorem inv_new : Inv QuantumSim.new := by
  refine ⟨IdMapWF_nil, ?_⟩
  intro kv hkv
  simp [QuantumSim.new] at hkv

theorem reachable_inv (sim : QuantumSim) (hr : Reachable sim) : Inv sim := by
  induction hr with
  | refl => exact inv_new
  | tail _ hstep ih => exact step_preserves_inv _ _ hstep ih

/-- C2: on every reachable simulator state, every stored key uses only bit
positions strictly below the current qubit count; in particular, after a
successful `release` the vacated bit position (the new qubit count) is
zero in every surviving key. -/
theorem c2_keys_bounded (sim : QuantumSim) (hr : Reachable sim) :
    (∀ kv ∈ sim.state, kv.1 < 2 ^ sim.id_map.length) ∧
    (∀ (sample : ℝ) (id : ℕ) (sim2 : QuantumSim),
      release sample id sim = some sim2 →
      ∀ kv ∈ sim2.state, kv.1.testBit sim2.id_map.length = false) := by
  refine ⟨(reachable_inv sim hr).2, ?_⟩
  intro sample id sim2 hrel kv hkv
  have hr2 : Reachable sim2 :=
    Relation.ReflTransGen.tail hr (Step.release sample id sim sim2 hrel)
  have hb := (reachable_inv sim2 hr2).2 kv hkv
  exact Nat.testBit_lt_two_pow hb

/-- Witness for C2 at the one-qubit simulator reached by a single
allocation: the single stored key 0 lies below 2 to the qubit count. -/
theorem c2_witness :
    ((0:ℕ), (1:ℂ)).1 < 2 ^ (QuantumSim.id_map ⟨[(0, 1)], [(0, 0)]⟩).length :=
  (c2_keys_bounded ⟨[(0, 1)], [(0, 0)]⟩ reach_one_qubit).1 ((0:ℕ), (1:ℂ))
    (List.mem_singleton_self _)

end QSim

namespace QSim

/-! ### Inverse gate pairs (C9) -/

theorem frac1Sqrt2_mul_self : frac1Sqrt2 * frac1Sqrt2 = 1 / 2 := by
  rw [frac1Sqrt2, ← mul_inv, Real.mul_self_sqrt (by norm_num : (0:ℝ) ≤ 2)]
  norm_num

theorem setBit_flip_flip (k t : ℕ) :
    setBitN (setBitN k t (! k.testBit t)) t (k.testBit t) = k := by
  apply Nat.eq_of_testBit_eq
  intro j
  by_cases hj : j = t
  · subst hj
    rw [testBit_setBitN_self]
  · rw [testBit_setBitN_ne _ _ _ _ hj, testBit_setBitN_ne _ _ _ _ hj]

theorem x_transform_invol (kv : ℕ × ℂ) (t : ℕ) :
    x_transform (x_transform kv t) t = kv := by
  rw [x_transform, x_transform]
  dsimp only
  rw [testBit_setBitN_self, Bool.not_not, setBit_flip_flip]

theorem y_transform_invol (kv : ℕ × ℂ) (t : ℕ) :
    y_transform (y_transform kv t) t = kv := by
  have hI : Complex.I * -Complex.I = 1 := by
    rw [mul_neg, Complex.I_mul_I]
    norm_num
  have hI2 : -Complex.I * Complex.I = 1 := by
    rw [neg_mul, Complex.I_mul_I]
    norm_num
  rw [y_transform, y_transform]
  dsimp only
  rw [testBit_setBitN_self, Bool.not_not, setBit_flip_flip]
  cases hb : kv.1.testBit t with
  | false => simp [mul_assoc, hI]
  | true => simp [mul_assoc, hI2]

theorem phase_pair_invol (p1 p2 : ℂ) (hp : p1 * p2 = 1) (kv : ℕ × ℂ) (t : ℕ) :
    phase_transform p2 (phase_transform p1 kv t) t = kv := by
  rw [phase_transform, phase_transform]
  dsimp only
  cases hb : kv.1.testBit t with
  | false => simp
  | true => simp [mul_assoc, hp]

theorem z_transform_invol (kv : ℕ × ℂ) (t : ℕ) :
    z_transform (z_transform kv t) t = kv :=
  phase_pair_invol (-1) (-1) (by norm_num) kv t

theorem s_sadj_invol (kv : ℕ × ℂ) (t : ℕ) :
    sadj_transform (s_transform kv t) t = kv :=
  phase_pair_invol Complex.I (-Complex.I) (by
    rw [mul_neg, Complex.I_mul_I]; norm_num) kv t

theorem t_tadj_invol (kv : ℕ × ℂ) (t : ℕ) :
    tadj_transform (t_transform kv t) t = kv := by
  refine phase_pair_invol ⟨frac1Sqrt2, frac1Sqrt2⟩ ⟨frac1Sqrt2, -frac1Sqrt2⟩ ?_ kv t
  rw [Complex.ext_iff]
  constructor
  · rw [Complex.mul_re]
    dsimp only
    rw [show frac1Sqrt2 * frac1Sqrt2 - frac1Sqrt2 * -frac1Sqrt2
        = frac1Sqrt2 * frac1Sqrt2 + frac1Sqrt2 * frac1Sqrt2 by ring,
      frac1Sqrt2_mul_self]
    norm_num
  · rw [Complex.mul_im]
    dsimp only
    rw [Complex.one_im]
    ring

theorem x_transform_normSq (kv : ℕ × ℂ) (t : ℕ) :
    Complex.normSq (x_transform kv t).2 = Complex.normSq kv.2 := rfl

theorem y_transform_normSq (kv : ℕ × ℂ) (t : ℕ) :
    Complex.normSq (y_transform kv t).2 = Complex.normSq kv.2 := by
  rw [y_transform]
  dsimp only
  cases hb : (setBitN kv.1 t (! kv.1.testBit t)).testBit t <;>
    simp [hb, Complex.normSq_mul]

theorem phase_transform_normSq (p : ℂ) (hp : Complex.normSq p = 1) (kv : ℕ × ℂ)
    (t : ℕ) : Complex.normSq (phase_transform p kv t).2 = Complex.normSq kv.2 := by
  rw [phase_transform]
  dsimp only
  cases hb : kv.1.testBit t <;> simp [hb, Complex.normSq_mul, hp]

theorem normSq_t_phase : Complex.normSq (⟨frac1Sqrt2, frac1Sqrt2⟩ : ℂ) = 1 := by
  rw [Complex.normSq_mk, frac1Sqrt2_mul_self]
  norm_num

theorem normSq_tadj_phase : Complex.normSq (⟨frac1Sqrt2, -frac1Sqrt2⟩ : ℂ) = 1 := by
  rw [Complex.normSq_mk]
  rw [show -frac1Sqrt2 * -frac1Sqrt2 = frac1Sqrt2 * frac1Sqrt2 by ring,
    frac1Sqrt2_mul_self]
  norm_num

end QSim

namespace QSim

/-! ### Insert algebra and the double swap of ids (C9) -/

theorem insertEntry_lookup_self {β : Type} (m : List (ℕ × β)) (k : ℕ) (v : β)
    (hl : lookup m k = some v) : insertEntry m k v = m := by
  induction m with
  | nil => simp [lookup] at hl
  | cons e rest ih =>
    rw [lookup] at hl
    rw [insertEntry]
    by_cases he : e.1 = k
    · rw [if_pos he] at hl ⊢
      have hv : e.2 = v := Option.some.inj hl
      rw [← he, ← hv]
    · rw [if_neg he] at hl ⊢
      rw [ih hl]

theorem insertEntry_insertEntry_same {β : Type} (m : List (ℕ × β)) (k : ℕ)
    (a b : β) : insertEntry (insertEntry m k a) k b = insertEntry m k b := by
  induction m with
  | nil => simp [insertEntry]
  | cons e rest ih =>
    by_cases he : e.1 = k
    · simp [insertEntry, he]
    · simp [insertEntry, he, ih]

theorem swap_ids_quadruple (m : List (ℕ × ℕ)) (q1 q2 v1 v2 : ℕ)
    (hne : q1 ≠ q2) (h1 : lookup m q1 = some v1) (h2 : lookup m q2 = some v2) :
    insertEntry (insertEntry (insertEntry (insertEntry m q1 v2) q2 v1) q1 v1) q2 v2
      = m := by
  induction m with
  | nil => simp [lookup] at h1
  | cons e rest ih =>
    by_cases he1 : e.1 = q1
    · have hv : e.2 = v1 := by
        rw [lookup, if_pos he1] at h1
        exact Option.some.inj h1
      have h2r : lookup rest q2 = some v2 := by
        rw [lookup, if_neg (fun hc => hne (he1.symm.trans hc))] at h2
        exact h2
      simp only [insertEntry, if_pos he1]
      rw [if_neg (show ((q1, v2) : ℕ × ℕ).1 ≠ q2 from hne)]
      rw [insertEntry, if_pos (show ((q1, v2) : ℕ × ℕ).1 = q1 from rfl)]
      rw [insertEntry, if_neg (show ((q1, v1) : ℕ × ℕ).1 ≠ q2 from hne)]
      rw [insertEntry_insertEntry_same, insertEntry_lookup_self rest q2 v2 h2r]
      rw [← he1, ← hv]
    · by_cases he2 : e.1 = q2
      · have hv : e.2 = v2 := by
          rw [lookup, if_pos he2] at h2
          exact Option.some.inj h2
        have h1r : lookup rest q1 = some v1 := by
          rw [lookup, if_neg he1] at h1
          exact h1
        rw [insertEntry, if_neg he1]
        rw [insertEntry, if_pos he2]
        rw [insertEntry, if_neg (show ((q2, v1) : ℕ × ℕ).1 ≠ q1 from
          fun hc => hne hc.symm)]
        rw [insertEntry, if_pos (show ((q2, v1) : ℕ × ℕ).1 = q2 from rfl)]
        rw [insertEntry_insertEntry_same, insertEntry_lookup_self rest q1 v1 h1r]
        rw [← he2, ← hv]
      · have h1r : lookup rest q1 = some v1 := by
          rw [lookup, if_neg he1] at h1
          exact h1
        have h2r : lookup rest q2 = some v2 := by
          rw [lookup, if_neg he2] at h2
          exact h2
        rw [insertEntry, if_neg he1]
        rw [insertEntry, if_neg he2]
        rw [insertEntry, if_neg he1]
        rw [insertEntry, if_neg he2]
        rw [ih h1r h2r]

theorem swap_qubit_ids_twice (q1 q2 : ℕ) (sim : QuantumSim) (v1 v2 : ℕ)
    (h1 : lookup sim.id_map q1 = some v1) (h2 : lookup sim.id_map q2 = some v2) :
    (swap_qubit_ids q1 q2 sim).bind (swap_qubit_ids q1 q2) = some sim := by
  obtain ⟨st, m⟩ := sim
  by_cases hq : q1 = q2
  · subst hq
    have hv : v1 = v2 := Option.some.inj (h1.symm.trans h2)
    subst hv
    rw [swap_qubit_ids]
    dsimp only at h1 ⊢
    rw [h1]
    dsimp only
    rw [insertEntry_insertEntry_same, insertEntry_lookup_self m q1 v1 h1]
    rw [Option.some_bind, swap_qubit_ids]
    dsimp only
    rw [h1]
    dsimp only
    rw [insertEntry_insertEntry_same, insertEntry_lookup_self m q1 v1 h1]
  · rw [swap_qubit_ids]
    dsimp only at h1 h2 ⊢
    rw [h1, h2]
    dsimp only
    rw [Option.some_bind, swap_qubit_ids]
    dsimp only
    rw [lookup_insertEntry_ne (insertEntry m q1 v2) q2 q1 v1 hq,
      lookup_insertEntry_self, lookup_insertEntry_self]
    dsimp only
    rw [swap_ids_quadruple m q1 q2 v1 v2 hq h1 h2]

end QSim

namespace QSim

/-! ### Uncontrolled gates as entrywise maps (C9) -/

theorem foldl_congr_mem {α β : Type} (l : List α) (f g : β → α → β) (a : β)
    (h : ∀ acc : β, ∀ x ∈ l, f acc x = g acc x) :
    l.foldl f a = l.foldl g a := by
  induction l generalizing a with
  | nil => rfl
  | cons e rest ih =>
    rw [List.foldl_cons, List.foldl_cons, h a e (List.mem_cons_self _ _)]
    exact ih _ fun acc x hx => h acc x (List.mem_cons_of_mem _ hx)

theorem map_congr_mem {α β : Type} (l : List α) (f g : α → β)
    (h : ∀ x ∈ l, f x = g x) : l.map f = l.map g := by
  induction l with
  | nil => rfl
  | cons e rest ih =>
    rw [List.map_cons, List.map_cons, h e (List.mem_cons_self _ _)]
    rw [ih fun x hx => h x (List.mem_cons_of_mem _ hx)]

theorem cg_nil_apply (sim : QuantumSim) (target tloc : ℕ)
    (op : ℕ × ℂ → ℕ → ℕ × ℂ)
    (hloc : lookup sim.id_map target = some tloc)
    (hknd : (keys (sim.state.map fun kv => op kv tloc)).Nodup)
    (hnz : ∀ kv ∈ sim.state, ¬ isNearlyZero (op kv tloc).2) :
    controlled_gate [] target op sim
      = some ⟨sim.state.map fun kv => op kv tloc, sim.id_map⟩ := by
  rw [controlled_gate, resolve_nil_ok sim target tloc hloc]
  dsimp only
  congr 1
  have hfold := foldl_congr_mem sim.state
    (fun accum kv =>
      let kv2 := if ([] : List ℕ).all (fun c => kv.1.testBit c) then op kv tloc else kv
      if ¬ isNearlyZero kv2.2 then insertEntry accum kv2.1 kv2.2 else accum)
    (fun accum kv => insertEntry accum (op kv tloc).1 (op kv tloc).2)
    []
    (by
      intro acc kv hkv
      show (if ¬ isNearlyZero (op kv tloc).2
          then insertEntry acc (op kv tloc).1 (op kv tloc).2 else acc)
        = insertEntry acc (op kv tloc).1 (op kv tloc).2
      rw [if_pos (hnz kv hkv)])
  rw [hfold]
  rw [foldl_insert_map (fun kv => op kv tloc) sim.state [] hknd (by simp [keys])]
  simp

theorem cg_pair_inverse (sim : QuantumSim) (target tloc : ℕ)
    (op1 op2 : ℕ × ℂ → ℕ → ℕ × ℂ)
    (hloc : lookup sim.id_map target = some tloc)
    (hknd1 : (keys (sim.state.map fun kv => op1 kv tloc)).Nodup)
    (hknd2 : (keys sim.state).Nodup)
    (hnz1 : ∀ kv ∈ sim.state, ¬ isNearlyZero (op1 kv tloc).2)
    (hinv : ∀ kv : ℕ × ℂ, op2 (op1 kv tloc) tloc = kv)
    (hnzv : ∀ kv ∈ sim.state, ¬ isNearlyZero kv.2) :
    (controlled_gate [] target op1 sim).bind (controlled_gate [] target op2)
      = some sim := by
  rw [cg_nil_apply sim target tloc op1 hloc hknd1 hnz1, Option.some_bind]
  have hmap2 : ((sim.state.map fun kv => op1 kv tloc).map fun kv => op2 kv tloc)
      = sim.state := by
    rw [List.map_map]
    have hcong := map_congr_mem sim.state
      ((fun kv => op2 kv tloc) ∘ fun kv => op1 kv tloc) id
      (fun kv _ => hinv kv)
    rw [hcong, List.map_id]
  have happ := cg_nil_apply
    ⟨sim.state.map fun kv => op1 kv tloc, sim.id_map⟩ target tloc op2 hloc
    (by
      dsimp only
      rw [hmap2]
      exact hknd2)
    (by
      dsimp only
      intro kv hkv
      rcases List.mem_map.1 hkv with ⟨kv0, hkv0, rfl⟩
      rw [hinv kv0]
      exact hnzv kv0 hkv0)
  rw [happ]
  dsimp only
  rw [hmap2]

end QSim

namespace QSim

/-! ### Per-gate key maps and value bounds (C9) -/

theorem not_nearlyZero_of_normSq_eq (a b : ℂ)
    (h : Complex.normSq a = Complex.normSq b) (hb : ¬ isNearlyZero b) :
    ¬ isNearlyZero a := by
  rw [isNearlyZero, h]
  exact hb

theorem flip_injective (t : ℕ) :
    Function.Injective fun k => setBitN k t (! k.testBit t) := by
  have hLI : Function.LeftInverse (fun k => setBitN k t (! k.testBit t))
      (fun k => setBitN k t (! k.testBit t)) := by
    intro k
    dsimp only
    rw [testBit_setBitN_self, Bool.not_not, setBit_flip_flip]
  exact hLI.injective

theorem keys_map_fst_eq (st : List (ℕ × ℂ)) (op : ℕ × ℂ → ℕ → ℕ × ℂ) (t : ℕ)
    (hop : ∀ kv, (op kv t).1 = kv.1) :
    keys (st.map fun kv => op kv t) = keys st := by
  rw [keys, keys, List.map_map]
  exact map_congr_mem st (Prod.fst ∘ fun kv => op kv t) Prod.fst fun kv _ => hop kv

theorem keys_map_flip (st : List (ℕ × ℂ)) (op : ℕ × ℂ → ℕ → ℕ × ℂ) (t : ℕ)
    (hop : ∀ kv, (op kv t).1 = setBitN kv.1 t (! kv.1.testBit t)) :
    keys (st.map fun kv => op kv t)
      = (keys st).map fun k => setBitN k t (! k.testBit t) := by
  rw [keys, keys, List.map_map, List.map_map]
  exact map_congr_mem st _ _ fun kv _ => hop kv

theorem sadj_s_invol (kv : ℕ × ℂ) (t : ℕ) :
    s_transform (sadj_transform kv t) t = kv :=
  phase_pair_invol (-Complex.I) Complex.I (by
    rw [neg_mul, Complex.I_mul_I]
    norm_num) kv t

theorem tadj_t_invol (kv : ℕ × ℂ) (t : ℕ) :
    t_transform (tadj_transform kv t) t = kv := by
  refine phase_pair_invol ⟨frac1Sqrt2, -frac1Sqrt2⟩ ⟨frac1Sqrt2, frac1Sqrt2⟩ ?_ kv t
  rw [Complex.ext_iff]
  constructor
  · rw [Complex.mul_re]
    dsimp only
    rw [show frac1Sqrt2 * frac1Sqrt2 - -frac1Sqrt2 * frac1Sqrt2
        = frac1Sqrt2 * frac1Sqrt2 + frac1Sqrt2 * frac1Sqrt2 by ring,
      frac1Sqrt2_mul_self]
    norm_num
  · rw [Complex.mul_im]
    dsimp only
    rw [Complex.one_im]
    ring

end QSim

namespace QSim

/-- C9 (amended): on a store with distinct keys, all amplitudes not nearly
zero, and a live target id, each of the pairs X/X, Y/Y, Z/Z, S/S-adjoint,
S-adjoint/S, T/T-adjoint, T-adjoint/T restores the simulator state exactly,
and swapping two live qubit ids twice also restores it exactly; the
Hadamard pair is excluded (its merge branch prunes nearly-zero merged
sums), and with nearly-zero stored amplitudes even the X/X pair fails,
because the per-entry prune drops the outputs. -/
theorem c9_inverse_pairs (sim : QuantumSim) (target tloc q1 q2 v1 v2 : ℕ)
    (hloc : lookup sim.id_map target = some tloc)
    (hnd : (keys sim.state).Nodup)
    (hnz : ∀ kv ∈ sim.state, ¬ isNearlyZero kv.2)
    (hq1 : lookup sim.id_map q1 = some v1)
    (hq2 : lookup sim.id_map q2 = some v2) :
    ((x target sim).bind (x target) = some sim) ∧
    ((y target sim).bind (y target) = some sim) ∧
    ((z target sim).bind (z target) = some sim) ∧
    ((s target sim).bind (sadj target) = some sim) ∧
    ((sadj target sim).bind (s target) = some sim) ∧
    ((t target sim).bind (tadj target) = some sim) ∧
    ((tadj target sim).bind (t target) = some sim) ∧
    ((swap_qubit_ids q1 q2 sim).bind (swap_qubit_ids q1 q2) = some sim) := by
  have hndflip : ∀ op : ℕ × ℂ → ℕ → ℕ × ℂ,
      (∀ kv, (op kv tloc).1 = setBitN kv.1 tloc (! kv.1.testBit tloc)) →
      (keys (sim.state.map fun kv => op kv tloc)).Nodup := by
    intro op hop
    rw [keys_map_flip sim.state op tloc hop]
    exact hnd.map (flip_injective tloc)
  have hndsame : ∀ op : ℕ × ℂ → ℕ → ℕ × ℂ,
      (∀ kv, (op kv tloc).1 = kv.1) →
      (keys (sim.state.map fun kv => op kv tloc)).Nodup := by
    intro op hop
    rw [keys_map_fst_eq sim.state op tloc hop]
    exact hnd
  refine ⟨?_, ?_, ?_, ?_, ?_, ?_, ?_, ?_⟩
  · exact cg_pair_inverse sim target tloc x_transform x_transform hloc
      (hndflip x_transform fun kv => rfl) hnd (fun kv hkv => hnz kv hkv)
      (fun kv => x_transform_invol kv tloc) hnz
  · exact cg_pair_inverse sim target tloc y_transform y_transform hloc
      (hndflip y_transform fun kv => rfl) hnd
      (fun kv hkv =>
        not_nearlyZero_of_normSq_eq _ _ (y_transform_normSq kv tloc) (hnz kv hkv))
      (fun kv => y_transform_invol kv tloc) hnz
  · exact cg_pair_inverse sim target tloc z_transform z_transform hloc
      (hndsame z_transform fun kv => rfl) hnd
      (fun kv hkv =>
        not_nearlyZero_of_normSq_eq _ _
          (phase_transform_normSq (-1) (by simp) kv tloc) (hnz kv hkv))
      (fun kv => z_transform_invol kv tloc) hnz
  · exact cg_pair_inverse sim target tloc s_transform sadj_transform hloc
      (hndsame s_transform fun kv => rfl) hnd
      (fun kv hkv =>
        not_nearlyZero_of_normSq_eq _ _
          (phase_transform_normSq Complex.I Complex.normSq_I kv tloc) (hnz kv hkv))
      (fun kv => s_sadj_invol kv tloc) hnz
  · exact cg_pair_inverse sim target tloc sadj_transform s_transform hloc
      (hndsame sadj_transform fun kv => rfl) hnd
      (fun kv hkv =>
        not_nearlyZero_of_normSq_eq _ _
          (phase_transform_normSq (-Complex.I) (by simp) kv tloc) (hnz kv hkv))
      (fun kv => sadj_s_invol kv tloc) hnz
  · exact cg_pair_inverse sim target tloc t_transform tadj_transform hloc
      (hndsame t_transform fun kv => rfl) hnd
      (fun kv hkv =>
        not_nearlyZero_of_normSq_eq _ _
          (phase_transform_normSq _ normSq_t_phase kv tloc) (hnz kv hkv))
      (fun kv => t_tadj_invol kv tloc) hnz
  · exact cg_pair_inverse sim target tloc tadj_transform t_transform hloc
      (hndsame tadj_transform fun kv => rfl) hnd
      (fun kv hkv =>
        not_nearlyZero_of_normSq_eq _ _
          (phase_transform_normSq _ normSq_tadj_phase kv tloc) (hnz kv hkv))
      (fun kv => tadj_t_invol kv tloc) hnz
  · exact swap_qubit_ids_twice q1 q2 sim v1 v2 hq1 hq2

/-- Witness for C9 (amended) on the one-qubit ground simulator: the X/X
and T/T-adjoint round trips restore the state exactly. -/
theorem c9_witness :
    ((x 0 ⟨[(0, 1)], [(0, 0)]⟩).bind (x 0) = some ⟨[(0, 1)], [(0, 0)]⟩) ∧
    ((t 0 ⟨[(0, 1)], [(0, 0)]⟩).bind (tadj 0) = some ⟨[(0, 1)], [(0, 0)]⟩) ∧
    ((swap_qubit_ids 0 0 ⟨[(0, 1)], [(0, 0)]⟩).bind (swap_qubit_ids 0 0)
      = some ⟨[(0, 1)], [(0, 0)]⟩) := by
  have hmain := c9_inverse_pairs ⟨[(0, 1)], [(0, 0)]⟩ 0 0 0 0 0 0 rfl
    (by simp [keys])
    (by
      intro kv hkv
      rw [List.mem_singleton] at hkv
      subst hkv
      rw [isNearlyZero, epsilon]
      norm_num [Complex.normSq_one])
    rfl rfl
  exact ⟨hmain.1, hmain.2.2.2.2.2.1, hmain.2.2.2.2.2.2.2⟩

end QSim

namespace QSim

/-! ### A reachable store with nearly-zero amplitudes (C9, counterexample) -/

theorem mchEntry_no_partner (old accum : List (ℕ × ℂ)) (target : ℕ)
    (clocs : List ℕ) (index : ℕ) (value : ℂ)
    (hctl : (clocs.all fun c => index.testBit c) = true)
    (hnp : lookup old (index ^^^ (1 <<< target)) = none) :
    mchEntry old target clocs accum (index, value)
      = insertEntry
          (insertEntry accum (setBitN index target false)
            (value * Complex.ofReal frac1Sqrt2))
          (setBitN index target true)
          (value * Complex.ofReal frac1Sqrt2
            * if index.testBit target then -1 else 1) := by
  rw [mchEntry]
  simp only [hctl, if_true, hnp]

theorem reach_two_qubit_flipped : Reachable ⟨[(1, 1)], [(0, 0), (1, 1)]⟩ :=
  Relation.ReflTransGen.tail reach_flipped
    (show Step ⟨[(1, 1)], [(0, 0)]⟩ ⟨[(1, 1)], [(0, 0), (1, 1)]⟩ from
      Step.allocate ⟨[(1, 1)], [(0, 0)]⟩)

theorem mcphase_small : mcphase [] (Complex.ofReal (3 / 250000)) 0
    ⟨[(1, 1)], [(0, 0), (1, 1)]⟩
      = some ⟨[(1, Complex.ofReal (3 / 250000))], [(0, 0), (1, 1)]⟩ := by
  rw [mcphase, controlled_gate, resolve_nil_ok _ 0 0 (by simp [lookup])]
  norm_num [phase_transform, isNearlyZero, epsilon, List.foldl_cons, List.foldl_nil,
    insertEntry, Complex.normSq_mul, Complex.normSq_one, Complex.normSq_ofReal]

theorem reach_small : Reachable ⟨[(1, Complex.ofReal (3 / 250000))], [(0, 0), (1, 1)]⟩ :=
  Relation.ReflTransGen.tail reach_two_qubit_flipped
    (Step.mcphase [] (Complex.ofReal (3 / 250000)) 0 _ _ mcphase_small)

theorem h_small : h 1 ⟨[(1, Complex.ofReal (3 / 250000))], [(0, 0), (1, 1)]⟩
    = some ⟨[(1, Complex.ofReal (3 / 250000) * Complex.ofReal frac1Sqrt2),
        (3, Complex.ofReal (3 / 250000) * Complex.ofReal frac1Sqrt2)],
      [(0, 0), (1, 1)]⟩ := by
  rw [h, mch, resolve_nil_ok _ 1 1 (by simp [lookup])]
  dsimp only
  rw [List.foldl_cons, List.foldl_nil]
  rw [mchEntry_no_partner _ _ _ _ _ _ (by simp) (by simp [lookup])]
  norm_num [setBitN, insertEntry, lookup, show Nat.testBit 1 1 = false from rfl,
    show (1 : ℕ) ^^^ 1 <<< 1 = 3 from rfl]

theorem reach_tiny :
    Reachable ⟨[(1, Complex.ofReal (3 / 250000) * Complex.ofReal frac1Sqrt2),
        (3, Complex.ofReal (3 / 250000) * Complex.ofReal frac1Sqrt2)],
      [(0, 0), (1, 1)]⟩ :=
  Relation.ReflTransGen.tail reach_small (Step.mch [] 1 _ _ h_small)

theorem nearlyZero_tiny :
    isNearlyZero (Complex.ofReal (3 / 250000) * Complex.ofReal frac1Sqrt2) := by
  rw [isNearlyZero, Complex.normSq_mul, normSq_frac1Sqrt2, Complex.normSq_ofReal,
    epsilon]
  norm_num

theorem x_tiny :
    x 1 ⟨[(1, Complex.ofReal (3 / 250000) * Complex.ofReal frac1Sqrt2),
        (3, Complex.ofReal (3 / 250000) * Complex.ofReal frac1Sqrt2)],
      [(0, 0), (1, 1)]⟩
      = some ⟨[], [(0, 0), (1, 1)]⟩ := by
  have hz := nearlyZero_tiny
  rw [x, controlled_gate, resolve_nil_ok _ 1 1 (by simp [lookup])]
  dsimp only
  rw [List.foldl_cons, List.foldl_cons, List.foldl_nil]
  simp only [List.all_nil, eq_self_iff_true, if_true]
  dsimp only [x_transform]
  simp only [if_neg (not_not_intro hz)]

end QSim

namespace QSim

/-- C9 (counterexample): a reachable two-qubit state stores nearly-zero
amplitudes (a small-phase gate followed by a Hadamard, whose no-partner
branch does not prune); the target id 1 is live, yet applying X to it
twice empties the store instead of restoring it — the pre-state amplitude
at key 1 is lost entirely, and its magnitude exceeds the 1e-10 tolerance. -/
theorem c9_counterexample :
    Reachable ⟨[(1, Complex.ofReal (3 / 250000) * Complex.ofReal frac1Sqrt2),
        (3, Complex.ofReal (3 / 250000) * Complex.ofReal frac1Sqrt2)],
      [(0, 0), (1, 1)]⟩ ∧
    lookup ([((0:ℕ), (0:ℕ)), (1, 1)]) 1 = some 1 ∧
    (x 1 ⟨[(1, Complex.ofReal (3 / 250000) * Complex.ofReal frac1Sqrt2),
        (3, Complex.ofReal (3 / 250000) * Complex.ofReal frac1Sqrt2)],
      [(0, 0), (1, 1)]⟩).bind (x 1)
        = some ⟨[], [(0, 0), (1, 1)]⟩ ∧
    lookup ([((1:ℕ), Complex.ofReal (3 / 250000) * Complex.ofReal frac1Sqrt2),
        (3, Complex.ofReal (3 / 250000) * Complex.ofReal frac1Sqrt2)]) 1
      = some (Complex.ofReal (3 / 250000) * Complex.ofReal frac1Sqrt2) ∧
    lookup ([] : List (ℕ × ℂ)) 1 = none ∧
    epsilon < Complex.abs (Complex.ofReal (3 / 250000) * Complex.ofReal frac1Sqrt2) := by
  refine ⟨reach_tiny, rfl, ?_, by simp [lookup], rfl, ?_⟩
  · rw [x_tiny, Option.some_bind]
    rw [x, controlled_gate, resolve_nil_ok _ 1 1 (by simp [lookup])]
    rfl
  · rw [Complex.abs_apply, Complex.normSq_mul, Complex.normSq_ofReal, normSq_frac1Sqrt2]
    have hsq : epsilon = Real.sqrt (((1:ℝ) / 10 ^ 10) ^ 2) := by
      rw [Real.sqrt_sq (by norm_num : (0:ℝ) ≤ 1 / 10 ^ 10), epsilon]
    rw [hsq]
    apply Real.sqrt_lt_sqrt (by positivity)
    norm_num

end QSim
